import Mathlib


/-!
Verification of the starfish recipe execution engine
(`starfish/recipe/recipe.py` and `starfish/recipe/runnable.py`).

The development has three parts:

* namespace `Sched`: a shallow embedding of `recipe.py` — `Execution`
  (needed-set construction via `build_graph`, `run_one_tick` with its
  persistent iterator, result eviction, `save`, `run_and_save`).  A runnable
  is abstracted exactly to what `recipe.py` uses: its positional inputs
  (references to earlier runnables or plain values, file references being
  deterministic values once decoded) and its algorithm's `run` operation,
  which may fail (modelled as `Except`).
* namespace `Runn`: a shallow embedding of `Runnable.__init__` and
  `Runnable.run` from `runnable.py` — option formatting with the
  extra-parameter warning, eager option decoding, lazy positional-input
  binding, and error wrapping.
* namespace `Parse`: the post-execution output validation of
  `Recipe.__init__`.

Python sets and dicts are modelled as lists used up to membership, and
association lists (`lookupList` / `insertResult` / `eraseResult`), keyed by
the declaration index of a runnable (Python object identity corresponds to
the index in the declaration-ordered sequence, since `compute` is the only
way a recipe script can obtain a `Runnable`).
-/

set_option maxHeartbeats 1000000


instance {ε α : Type} [DecidableEq ε] [DecidableEq α] :
    DecidableEq (Except ε α) := fun x y =>
  match x, y with
  | .error a, .error b =>
    if h : a = b then isTrue (by rw [h])
    else isFalse (fun he => h (by injection he))
  | .error _, .ok _ => isFalse (fun he => Except.noConfusion he)
  | .ok _, .error _ => isFalse (fun he => Except.noConfusion he)
  | .ok a, .ok b =>
    if h : a = b then isTrue (by rw [h])
    else isFalse (fun he => h (by injection he))

/-- Association-list lookup, modelling Python dict indexing. -/
def lookupList {α : Type} : List (Nat × α) → Nat → Option α
  | [], _ => none
  | (k, v) :: rest, i => if k = i then some v else lookupList rest i


/-- Association-list insertion/update, modelling Python dict assignment. -/
def insertResult {α : Type} : List (Nat × α) → Nat → α → List (Nat × α)
  | [], i, v => [(i, v)]
  | (k, w) :: rest, i, v =>
    if k = i then (i, v) :: rest else (k, w) :: insertResult rest i v


/-- Association-list key removal, modelling Python `del d[k]` (dict keys are
unique, so removing every pair with the key is the same operation). -/
def eraseResult {α : Type} : List (Nat × α) → Nat → List (Nat × α)
  | [], _ => []
  | (k, w) :: rest, i =>
    if k = i then eraseResult rest i else (k, w) :: eraseResult rest i


namespace Sched

/-- A positional input of a runnable, as `recipe.py` observes it: a reference
to an earlier runnable (`Runnable` object in `self._inputs`) or any other
already-determined value (raw values and typed file references, whose decoding
is deterministic). -/
inductive Input (V : Type) where
  | ref (i : Nat)
  | raw (v : V)
deriving DecidableEq


/-- A runnable as used by `Execution`: its bound positional inputs and its
algorithm's `run` operation, which may fail with an algorithm-level error. -/
structure Runnable (V E : Type) where
  inputs : List (Input V)
  alg : List V → Except E V


/-- The set of runnables this runnable depends on
(`Runnable.runnable_dependencies`): the references among its positional
inputs, as a set (deduplicated). -/
def Runnable.dependencies {V E : Type} (r : Runnable V E) : List Nat :=
  (r.inputs.filterMap fun i =>
    match i with
    | .ref j => some j
    | .raw _ => none).dedup


/-- Placeholder runnable used for out-of-range indexing; execution never
reaches it. -/
def defaultRunnable (V E : Type) [Inhabited V] : Runnable V E :=
  ⟨[], fun _ => .ok default⟩


/-- A parsed recipe (`Recipe`): the declaration-ordered runnable sequence,
the designated output runnables (as indices into the sequence) and the output
destinations.  The two propositional fields record the construction-order
invariant enforced by the parser: a runnable only references runnables
declared strictly earlier, and outputs are members of the sequence. -/
structure Recipe (V E : Type) where
  runnableSequence : List (Runnable V E)
  outputs : List Nat
  outputPaths : List String
  deps_lt : ∀ i r, runnableSequence.get? i = some r → ∀ d ∈ r.dependencies, d < i
  outputs_lt : ∀ o ∈ outputs, o < runnableSequence.length


variable {V E : Type} [Inhabited V]

/-- The runnable at a declaration index. -/
def Recipe.runnableAt (g : Recipe V E) (i : Nat) : Runnable V E :=
  match g.runnableSequence.get? i with
  | some r => r
  | none => defaultRunnable V E


/-- Dependencies of the runnable at a declaration index. -/
def Recipe.depsAt (g : Recipe V E) (i : Nat) : List Nat :=
  (g.runnableAt i).dependencies


/-- Intermediate state of `Execution.build_graph`: the needed-set and the
dependents index. -/
structure BuildState where
  neededRunnables : List Nat
  runnableDependents : List (Nat × List Nat)


/-- Record `t` as a dependent of `d`
(`runnable_dependents.setdefault(d, set()).add(t)`). -/
def addDependent : List (Nat × List Nat) → Nat → Nat → List (Nat × List Nat)
  | [], d, t => [(d, [t])]
  | (k, l) :: rest, d, t =>
    if k = d then (k, if t ∈ l then l else t :: l) :: rest
    else (k, l) :: addDependent rest d t


/-- Dependents recorded for a runnable in the index (empty when absent). -/
def depLook (m : List (Nat × List Nat)) (d : Nat) : List Nat :=
  (lookupList m d).getD []


/-- Fueled version of `Execution.build_graph`.  The fuel argument makes the
recursion structural; `buildGraph` instantiates it with `r + 1`, which is
always sufficient because dependencies have strictly smaller indices. -/
def buildGraphF (g : Recipe V E) : Nat → Nat → BuildState → BuildState
  | 0, _, acc => acc
  | fuel + 1, r, acc =>
    if r ∈ acc.neededRunnables then acc
    else
      (g.depsAt r).foldl
        (fun a d =>
          buildGraphF g fuel d
            { a with runnableDependents := addDependent a.runnableDependents d r })
        { acc with neededRunnables := r :: acc.neededRunnables }


/-- `Execution.build_graph`: depth-first traversal recording the needed-set
and the dependents index. -/
def buildGraph (g : Recipe V E) (r : Nat) (acc : BuildState) : BuildState :=
  buildGraphF g (r + 1) r acc


/-- The build state after traversing every output
(the loop in `Execution.__init__`). -/
def buildAll (g : Recipe V E) : BuildState :=
  g.outputs.foldl (fun acc o => buildGraph g o acc) ⟨[], []⟩


/-- The needed-set computed when the `Execution` is built
(`self.needed_runnables`). -/
def neededRunnables (g : Recipe V E) : List Nat :=
  (buildAll g).neededRunnables


/-- The dependents index computed when the `Execution` is built
(`self.runnable_dependents`). -/
def runnableDependents (g : Recipe V E) (d : Nat) : List Nat :=
  depLook (buildAll g).runnableDependents d


/-- Pointwise inclusion of build states. -/
def BuildState.le (a b : BuildState) : Prop :=
  a.neededRunnables ⊆ b.neededRunnables ∧
    ∀ d, depLook a.runnableDependents d ⊆ depLook b.runnableDependents d


/-- A runnable is fully processed in a build state: all its dependencies are
in the needed-set and it is recorded as their dependent. -/
def Processed (g : Recipe V E) (a : BuildState) (t : Nat) : Prop :=
  ∀ d ∈ g.depsAt t, d ∈ a.neededRunnables ∧ t ∈ depLook a.runnableDependents d


/-- Reachability from the output tasks by following dependency edges. -/
inductive Reaches (g : Recipe V E) : Nat → Prop where
  | out {o : Nat} : o ∈ g.outputs → Reaches g o
  | step {t d : Nat} : Reaches g t → d ∈ g.depsAt t → Reaches g d


/-- The mutable state of an `Execution`: the position of the persistent
iterator over the runnable sequence (`self._runnable_sequence` is an
iterator), the completed-set, the results-cache, and the
remaining-outputs-set.  The needed-set and the dependents index are immutable
functions of the recipe (`neededRunnables` / `runnableDependents`). -/
structure ExecState (V : Type) where
  cursor : Nat
  completedRunnables : List Nat
  completedResults : List (Nat × V)
  incompleteOutputs : List Nat
deriving DecidableEq


/-- A fresh execution over a recipe (`Recipe.execution` building
`Execution.__init__`): the iterator stands at the sequence start, nothing has
completed, and every designated output is incomplete
(`set(self._output_runnables)`). -/
def Recipe.execution (g : Recipe V E) : ExecState V :=
  ⟨0, [], [], g.outputs.dedup⟩


/-- `Execution.complete`: no designated output remains incomplete. -/
def ExecState.complete (s : ExecState V) : Prop :=
  s.incompleteOutputs = []


/-- The exceptions a tick or a save can raise: `StopIteration` from the
exhausted iterator, `KeyError` from a missing cache entry, a failed `assert`,
or an `ExecutionError` wrapping the algorithm's own failure. -/
inductive TickErr (E : Type) where
  | stopIteration
  | keyError
  | assertionFailed
  | executionError (cause : E)
deriving DecidableEq


/-- Resolution of the bound inputs in `Runnable.run`: a runnable reference is
replaced by the referenced runnable's entry in `previous_results` (Python
raises `KeyError` when the entry is absent); any other value is used as is. -/
def resolveInputs {V E : Type} :
    List (Input V) → List (Nat × V) → Except (TickErr E) (List V)
  | [], _ => .ok []
  | .ref j :: rest, prev =>
    match lookupList prev j with
    | none => .error .keyError
    | some v =>
      match resolveInputs rest prev with
      | .error e => .error e
      | .ok vs => .ok (v :: vs)
  | .raw v :: rest, prev =>
    match resolveInputs rest prev with
    | .error e => .error e
    | .ok vs => .ok (v :: vs)


/-- `Runnable.run`: resolve the inputs against the previous results, invoke
the algorithm's run operation, and wrap any failure it raises as an
`ExecutionError` preserving the cause. -/
def Runnable.run {V E : Type} (r : Runnable V E) (previousResults : List (Nat × V)) :
    Except (TickErr E) V :=
  match resolveInputs r.inputs previousResults with
  | .error e => .error e
  | .ok args =>
    match r.alg args with
    | .ok v => .ok v
    | .error e => .error (.executionError e)


/-- Fueled scan of the runnable iterator: starting at `cur`, the first index
in the needed-set; the fuel only makes the recursion structural. -/
def scanF (n : Nat) (needed : List Nat) : Nat → Nat → Option Nat
  | 0, _ => none
  | fuel + 1, cur =>
    if cur < n then
      (if cur ∈ needed then some cur else scanF n needed fuel (cur + 1))
    else none


/-- The `while True: candidate_runnable = next(self._runnable_sequence)` loop
of `run_one_tick`, drawing from the iterator at position `cur`; `none` models
the `StopIteration` raised once the sequence is exhausted. -/
def nextNeeded (g : Recipe V E) (cur : Nat) : Option Nat :=
  scanF g.runnableSequence.length (neededRunnables g)
    (g.runnableSequence.length - cur) cur


/-- The eviction loop at the end of `run_one_tick`: for each dependency of
the just-completed runnable that is not a designated output, drop its cached
result once every recorded dependent has completed. -/
def evict (g : Recipe V E) (deps : List Nat) (completed : List Nat)
    (cache : List (Nat × V)) : List (Nat × V) :=
  deps.foldl
    (fun ch d =>
      if d ∈ g.outputs then ch
      else if ∀ t ∈ runnableDependents g d, t ∈ completed then eraseResult ch d
      else ch)
    cache


/-- `Execution.run_one_tick`: draw runnables from the persistent iterator
until one in the needed-set is found (`StopIteration` once the sequence is
exhausted), run it against the results-cache, record it as completed, cache
its result, discard it from the remaining outputs, and evict dead results. -/
def runOneTick (g : Recipe V E) (s : ExecState V) :
    Except (TickErr E) (ExecState V) :=
  match nextNeeded g s.cursor with
  | none => .error .stopIteration
  | some c =>
    match (g.runnableAt c).run s.completedResults with
    | .error e => .error e
    | .ok result =>
      let completed := c :: s.completedRunnables
      .ok
        { cursor := c + 1
          completedRunnables := completed
          completedResults :=
            evict g (g.depsAt c) completed (insertResult s.completedResults c result)
          incompleteOutputs := s.incompleteOutputs.erase c }


/-- The per-output loop of `Execution.save`: fetch each output's cached
result (Python would raise `KeyError` on a missing entry) and pair it with
its destination path, in destination order. -/
def saveEach {V E : Type} : List (Nat × String) → List (Nat × V) →
    Except (TickErr E) (List (String × V))
  | [], _ => .ok []
  | (o, p) :: rest, cache =>
    match lookupList cache o with
    | none => .error .keyError
    | some v =>
      match saveEach rest cache with
      | .error e => .error e
      | .ok out => .ok ((p, v) :: out)


/-- `Execution.save`: `assert self.complete`, then persist each designated
output to its destination. -/
def save (g : Recipe V E) (s : ExecState V) :
    Except (TickErr E) (List (String × V)) :=
  if s.incompleteOutputs = [] then
    saveEach (g.outputs.zip g.outputPaths) s.completedResults
  else .error .assertionFailed


/-- The loop of `Execution.run_and_save`: tick while not complete, then
save.  The fuel only makes the loop structural; `runAndSave` supplies
`length - cursor`, which is always sufficient because every successful tick
advances the iterator by at least one position: with the fuel exhausted and
outputs still incomplete the next tick necessarily raises `StopIteration`
from the exhausted iterator, which is what the zero case returns. -/
def runAndSaveF (g : Recipe V E) :
    Nat → ExecState V → Except (TickErr E) (List (String × V))
  | 0, s => if s.incompleteOutputs = [] then save g s else .error .stopIteration
  | fuel + 1, s =>
    if s.incompleteOutputs = [] then save g s
    else
      match runOneTick g s with
      | .error e => .error e
      | .ok s' => runAndSaveF g fuel s'

/-- `Execution.run_and_save`: repeat `run_one_tick` until complete, then
`save`. -/
def runAndSave (g : Recipe V E) (s : ExecState V) :
    Except (TickErr E) (List (String × V)) :=
  runAndSaveF g (g.runnableSequence.length - s.cursor) s

/-- The canonical value of each runnable: its algorithm applied to the
canonical values of its inputs (well-founded by declaration index thanks to
the construction-order invariant); `default` when the algorithm fails, a case
that never arises along a successful execution. -/
def eval (g : Recipe V E) (i : Nat) : V :=
  match (g.runnableAt i).alg
      ((g.runnableAt i).inputs.attach.map fun x =>
        match x with
        | ⟨.ref j, _⟩ => eval g j
        | ⟨.raw v, _⟩ => v) with
  | .ok v => v
  | .error _ => default
termination_by i
decreasing_by
  rename_i hmem
  have hj : j ∈ (g.runnableAt i).dependencies := by
    unfold Runnable.dependencies
    rw [List.mem_dedup, List.mem_filterMap]
    exact ⟨Input.ref j, hmem, rfl⟩
  unfold Recipe.runnableAt at hj
  cases hg : g.runnableSequence.get? i with
  | some r =>
    rw [hg] at hj
    exact g.deps_lt i r hg j hj
  | none =>
    rw [hg] at hj
    simp [defaultRunnable, Runnable.dependencies] at hj

/-- Canonical resolution of a single bound input. -/
def evalInput (g : Recipe V E) : Input V → V
  | .ref j => eval g j
  | .raw v => v


/-- Every algorithm run succeeds on every input (the deterministic,
non-failing algorithms hypothesis). -/
def NoFail (g : Recipe V E) : Prop :=
  ∀ i args, ∃ v, (g.runnableAt i).alg args = .ok v


/-- The execution invariant: established by `Execution.__init__` and
preserved by every successful `run_one_tick`.  It characterises the
completed-set (exactly the needed runnables the iterator has passed), the
results-cache (an entry exactly for each completed runnable that is an output
or still has an incomplete dependent, holding its canonical value) and the
remaining-outputs-set. -/
structure Inv (g : Recipe V E) (s : ExecState V) : Prop where
  completed_needed : ∀ i ∈ s.completedRunnables, i ∈ neededRunnables g
  completed_lt : ∀ i ∈ s.completedRunnables, i < s.cursor
  passed_completed : ∀ i ∈ neededRunnables g, i < s.cursor → i ∈ s.completedRunnables
  cursor_le : s.cursor ≤ g.runnableSequence.length
  cache_iff : ∀ i, (lookupList s.completedResults i).isSome ↔
    (i ∈ s.completedRunnables ∧
      (i ∈ g.outputs ∨ ∃ d ∈ runnableDependents g i, d ∉ s.completedRunnables))
  cache_eval : ∀ i v, lookupList s.completedResults i = some v → v = eval g i
  inc_iff : ∀ o, o ∈ s.incompleteOutputs ↔ (o ∈ g.outputs ∧ o ∉ s.completedRunnables)
  inc_nodup : s.incompleteOutputs.Nodup


/-- The states an execution can reach from construction by successful ticks. -/
inductive Reachable (g : Recipe V E) : ExecState V → Prop where
  | execution : Reachable g (Recipe.execution g)
  | tick {s s' : ExecState V} : Reachable g s → runOneTick g s = .ok s' →
      Reachable g s'


end Sched

namespace Runn

/-- A named option value as the recipe script supplies it: a generic file
reference (`FileProvider`, carrying only a location) or any other value. -/
inductive OptVal (V : Type) where
  | file (loc : String)
  | value (v : V)
deriving DecidableEq

/-- A positional input as the recipe script supplies it: a generic file
reference, a reference to another task (by declaration index), or any other
value. -/
inductive RawIn (V : Type) where
  | file (loc : String)
  | task (i : Nat)
  | value (v : V)
deriving DecidableEq

/-- A bound positional input after construction: a positional file reference
is bound to a typed file reference (its location together with the parameter
type resolved from the run signature, decoded only at run time); task
references and other values pass through unchanged. -/
inductive BoundIn (V Ann : Type) where
  | typedFile (loc : String) (ann : Ann)
  | task (i : Nat)
  | value (v : V)
deriving DecidableEq

/-- The algorithm implementation resolved from the registry by
(category name, algorithm name): the constructor's named parameters with
their type annotations, the constructor itself, the run operation's
positional parameter annotations (`self` removed), and the run operation. -/
structure Algo (V E A Ann : Type) where
  ctorParams : List (String × Ann)
  ctor : List (String × OptVal V) → Except E A
  runParams : List Ann
  run : A → List V → Except E V

/-- The failures `Runnable` construction and running can surface.
Modelled from the spec: `starfish/recipe/errors.py` is not under `src/`
(only its import sites are), and the spec's error table (§7) lists
`ConstructorError`, `TypeInferenceError` and `ExecutionError` as wrapping
exceptions that preserve their cause.  `assertionError` models Python's
`AssertionError` from a failed `assert`; `keyError` the uncaught `KeyError`
from `previous_results[...]`. -/
inductive RunnableErr (E : Type) where
  | constructorError (cause : E)
  | typeInferenceError
  | executionError (cause : E)
  | assertionError
  | keyError
deriving DecidableEq

/-- String-keyed association lookup, modelling `signature.parameters[name]`
(`none` models the `KeyError`). -/
def lookupStr {α : Type} : List (String × α) → String → Option α
  | [], _ => none
  | (k, v) :: rest, n => if k = n then some v else lookupStr rest n

/-- The named-option loop of `Runnable.__init__`: a file-reference option
whose name is not a constructor parameter emits a
`ConstructorExtraParameterWarning` (the returned warning list records the
option name) and is dropped via `continue`; a declared one is bound to a
typed provider (failing with `TypeInferenceError` when no loader matches its
annotation) and decoded eagerly (`provider.load()`); any other option passes
through.  `reg` is the type-to-loader registry of `filesystem.py`. -/
def formatOptions {V E Ann : Type} (reg : Ann → Option (String → V))
    (ctorParams : List (String × Ann)) :
    List (String × OptVal V) →
      Except (RunnableErr E) (List String × List (String × OptVal V))
  | [] => .ok ([], [])
  | (name, .file loc) :: rest =>
    match lookupStr ctorParams name with
    | none =>
      match formatOptions reg ctorParams rest with
      | .error e => .error e
      | .ok (ws, fs) => .ok (name :: ws, fs)
    | some ann =>
      match reg ann with
      | none => .error .typeInferenceError
      | some loader =>
        match formatOptions reg ctorParams rest with
        | .error e => .error e
        | .ok (ws, fs) => .ok (ws, (name, .value (loader loc)) :: fs)
  | (name, .value v) :: rest =>
    match formatOptions reg ctorParams rest with
    | .error e => .error e
    | .ok (ws, fs) => .ok (ws, (name, .value v) :: fs)

/-- The positional-input loop of `Runnable.__init__` over
`zip(raw_inputs, keys)`: a file reference resolves its target type from the
run parameter at the same position and is bound as a typed file reference —
without decoding; everything else passes through. -/
def mapFormat {V E Ann : Type} (reg : Ann → Option (String → V)) :
    List (RawIn V × Ann) → Except (RunnableErr E) (List (BoundIn V Ann))
  | [] => .ok []
  | (.file loc, ann) :: rest =>
    match reg ann with
    | none => .error .typeInferenceError
    | some _ =>
      match mapFormat reg rest with
      | .error e => .error e
      | .ok bs => .ok (.typedFile loc ann :: bs)
  | (.task i, _) :: rest =>
    match mapFormat reg rest with
    | .error e => .error e
    | .ok bs => .ok (.task i :: bs)
  | (.value v, _) :: rest =>
    match mapFormat reg rest with
    | .error e => .error e
    | .ok bs => .ok (.value v :: bs)

/-- Positional-input binding with the leading
`assert len(self._raw_inputs) <= len(keys)`. -/
def formatInputs {V E Ann : Type} (reg : Ann → Option (String → V))
    (runParams : List Ann) (raws : List (RawIn V)) :
    Except (RunnableErr E) (List (BoundIn V Ann)) :=
  if raws.length ≤ runParams.length then mapFormat reg (raws.zip runParams)
  else .error .assertionError

/-- A constructed `Runnable`: the instantiated algorithm, the bound
positional inputs, and the warnings emitted during construction. -/
structure Runnable (V E A Ann : Type) where
  algorithmInstance : A
  inputs : List (BoundIn V Ann)
  warnings : List String
deriving DecidableEq

/-- `Runnable.__init__`: format the named options, instantiate the algorithm
wrapping any failure as `ConstructorError` (cause preserved), then bind the
positional inputs against the run signature. -/
def mkRunnable {V E A Ann : Type} (reg : Ann → Option (String → V))
    (alg : Algo V E A Ann) (raws : List (RawIn V))
    (opts : List (String × OptVal V)) :
    Except (RunnableErr E) (Runnable V E A Ann) :=
  match formatOptions reg alg.ctorParams opts with
  | .error e => .error e
  | .ok (ws, fs) =>
    match alg.ctor fs with
    | .error e => .error (.constructorError e)
    | .ok inst =>
      match formatInputs reg alg.runParams raws with
      | .error e => .error e
      | .ok binputs => .ok ⟨inst, binputs, ws⟩

/-- Resolution of one bound input inside `Runnable.run`: a task reference is
replaced by `previous_results[task]` (the uncaught `KeyError` when absent), a
typed file reference is decoded now — this is the point where the lazy
decode happens — and any other value is used unchanged.  (The
`typeInferenceError` branch is unreachable for inputs bound at construction,
which checked the registry.) -/
def resolveInput {V E Ann : Type} (reg : Ann → Option (String → V))
    (prev : List (Nat × V)) : BoundIn V Ann → Except (RunnableErr E) V
  | .task i =>
    match lookupList prev i with
    | none => .error .keyError
    | some v => .ok v
  | .typedFile loc ann =>
    match reg ann with
    | none => .error .typeInferenceError
    | some loader => .ok (loader loc)
  | .value v => .ok v

/-- The input-resolution loop of `Runnable.run`. -/
def resolveAll {V E Ann : Type} (reg : Ann → Option (String → V))
    (prev : List (Nat × V)) :
    List (BoundIn V Ann) → Except (RunnableErr E) (List V)
  | [] => .ok []
  | b :: rest =>
    match resolveInput reg prev b with
    | .error e => .error e
    | .ok v =>
      match resolveAll reg prev rest with
      | .error e => .error e
      | .ok vs => .ok (v :: vs)

/-- `Runnable.run`: resolve each bound input, then invoke the algorithm's
run operation, wrapping any failure it raises as `ExecutionError` with the
cause preserved. -/
def Runnable.run {V E A Ann : Type} (reg : Ann → Option (String → V))
    (alg : Algo V E A Ann) (r : Runnable V E A Ann) (prev : List (Nat × V)) :
    Except (RunnableErr E) V :=
  match resolveAll reg prev r.inputs with
  | .error e => .error e
  | .ok args =>
    match alg.run r.algorithmInstance args with
    | .ok v => .ok v
    | .error e => .error (.executionError e)

end Runn

namespace Parse

/-- A value the recipe script can leave in `file_outputs[i]`: the result of a
`compute(..)` call (a `Runnable`, identified by declaration index) or any
other value. -/
inductive OutEntry (V : Type) where
  | runnable (id : Nat)
  | other (v : V)
deriving DecidableEq

/-- The exceptions `Recipe.__init__` validation can raise.
Modelled from the spec: `starfish/recipe/errors.py` is not under `src/`; the
spec's §7 table lists `RecipeError` as the parse-time validation failure.
Python's `assert` raises `AssertionError`, a distinct exception type. -/
inductive ParseErr where
  | assertionError
  | recipeError
deriving DecidableEq

/-- The `for ix in range(len(outputs))` loop of `Recipe.__init__`: assert
each index is a key of the mapping, assert its value is a `Runnable`, and
append it; processes indices in ascending order, so Python's first failing
assert is the error produced. -/
def collectOutputs {V : Type} (outputs : List (Nat × OutEntry V)) :
    Nat → Except ParseErr (List Nat)
  | 0 => .ok []
  | n + 1 =>
    match collectOutputs outputs n with
    | .error e => .error e
    | .ok l =>
      match lookupList outputs n with
      | none => .error .assertionError
      | some (.runnable id) => .ok (l ++ [id])
      | some (.other _) => .error .assertionError

/-- The post-execution validation of `Recipe.__init__`: assert the output
mapping's size equals the destination count, then collect the outputs in
index order.  Every check is a Python `assert`. -/
def mkRecipeOutputs {V : Type} (outputs : List (Nat × OutEntry V))
    (outputPaths : List String) : Except ParseErr (List Nat) :=
  if outputs.length = outputPaths.length then
    collectOutputs outputs outputs.length
  else .error .assertionError

end Parse

/-- Addition algorithm used by the concrete example recipes. -/
def sumAlg : List Nat → Except Unit Nat :=
  fun args => .ok (args.foldl (fun a b => a + b) 0)

/-- A two-runnable chain: runnable 1 consumes runnable 0's result; the single
designated output is runnable 1. -/
def chain2 : Sched.Recipe Nat Unit :=
  ⟨[⟨[Sched.Input.raw 5], sumAlg⟩, ⟨[Sched.Input.ref 0], sumAlg⟩],
   [1], ["out.json"],
   by
    intro i r h d hd
    rcases i with - | - | i
    · simp only [List.get?] at h
      injection h with h
      subst h
      simp [Sched.Runnable.dependencies] at hd
    · simp only [List.get?] at h
      injection h with h
      subst h
      simp [Sched.Runnable.dependencies] at hd
      omega
    · simp [List.get?] at h,
   by
    intro o ho
    simp at ho
    subst ho
    decide⟩

/-- The state of a `chain2` execution after its first tick: the iterator
stands at position 1, runnable 0 has run and its result is cached, the
output is still incomplete. -/
def chain2s1 : Sched.ExecState Nat :=
  ⟨1, [0], [(0, 5)], [1]⟩

/-- The state of a `chain2` execution after its second tick: both runnables
have run, runnable 0's result has been evicted (its only dependent is
complete), and no output is incomplete. -/
def chain2s2 : Sched.ExecState Nat :=
  ⟨2, [1, 0], [(1, 5)], []⟩

/-- A recipe with an unreachable decoy: runnable 2 is declared but no output
depends on it. -/
def decoy3 : Sched.Recipe Nat Unit :=
  ⟨[⟨[Sched.Input.raw 5], sumAlg⟩, ⟨[Sched.Input.ref 0], sumAlg⟩,
    ⟨[Sched.Input.raw 7], sumAlg⟩],
   [1], ["out.json"],
   by
    intro i r h d hd
    rcases i with - | - | - | i
    · simp only [List.get?] at h
      injection h with h
      subst h
      simp [Sched.Runnable.dependencies] at hd
    · simp only [List.get?] at h
      injection h with h
      subst h
      simp [Sched.Runnable.dependencies] at hd
      omega
    · simp only [List.get?] at h
      injection h with h
      subst h
      simp [Sched.Runnable.dependencies] at hd
    · simp [List.get?] at h,
   by
    intro o ho
    simp at ho
    subst ho
    decide⟩

/-- The state of a `decoy3` execution after its first tick. -/
def decoy3s1 : Sched.ExecState Nat :=
  ⟨1, [0], [(0, 5)], [1]⟩

/-- A one-runnable recipe whose algorithm always fails. -/
def failing1 : Sched.Recipe Nat Unit :=
  ⟨[⟨[], fun _ => .error ()⟩], [0], ["out.json"],
   by
    intro i r h d hd
    rcases i with - | i
    · simp only [List.get?] at h
      injection h with h
      subst h
      simp [Sched.Runnable.dependencies] at hd
    · simp [List.get?] at h,
   by
    intro o ho
    simp at ho
    subst ho
    decide⟩

/-- Registry for the concrete examples: annotation `0` decodes a location to
its length; any other annotation has no loader. -/
def regN : Nat → Option (String → Nat) :=
  fun a => if a = 0 then some (fun loc => loc.length) else none

/-- Algorithm whose constructor records the options it receives as the
algorithm instance, to observe what the constructor was called with. -/
def recAlg : Runn.Algo Nat Unit (List (String × Runn.OptVal Nat)) Nat :=
  ⟨[], fun fs => .ok fs, [], fun _ args => .ok (args.foldl (fun a b => a + b) 0)⟩

/-- Algorithm with two positional run parameters, both annotated `0`, for
the lazy-binding example. -/
def algC6 : Runn.Algo Nat Unit Unit Nat :=
  ⟨[], fun _ => .ok (), [0, 0], fun _ args => .ok (args.foldl (fun a b => a + b) 0)⟩

/-- The runnable the lazy-binding example constructs: the positional file
reference is bound, undecoded, to a typed file reference. -/
def rC6 : Runn.Runnable Nat Unit Unit Nat :=
  ⟨(), [Runn.BoundIn.typedFile "ab" 0, Runn.BoundIn.value 7], []⟩

/-- Algorithm whose constructor always fails. -/
def ctorFailAlg : Runn.Algo Nat Unit Unit Nat :=
  ⟨[], fun _ => .error (), [], fun _ _ => .ok 0⟩

/-- Algorithm whose run operation always fails. -/
def runFailAlg : Runn.Algo Nat Unit Unit Nat :=
  ⟨[], fun _ => .ok (), [], fun _ _ => .error ()⟩

/-- A bound runnable with no inputs, for the failing-run example. -/
def emptyRunnable : Runn.Runnable Nat Unit Unit Nat :=
  ⟨(), [], []⟩

/-- Algorithm whose run operation declares no positional parameters, for the
too-many-inputs example. -/
def noParamAlg : Runn.Algo Nat Unit Unit Nat :=
  ⟨[], fun _ => .ok (), [], fun _ _ => .ok 0⟩

theorem lookupList_insertResult {α : Type} (c : List (Nat × α)) (i : Nat) (v : α)
    (j : Nat) :
    lookupList (insertResult c i v) j = if j = i then some v else lookupList c j := by
  induction c with
  | nil =>
    by_cases h : j = i
    · subst h
      simp [insertResult, lookupList]
    · simp [insertResult, lookupList, h, Ne.symm h]
  | cons kv rest ih =>
    obtain ⟨k, w⟩ := kv
    by_cases hk : k = i
    · subst hk
      by_cases h : j = k
      · subst h
        simp [insertResult, lookupList]
      · simp [insertResult, lookupList, h, Ne.symm h]
    · by_cases h : k = j
      · subst h
        simp [insertResult, lookupList, hk, Ne.symm hk]
      · simp [insertResult, lookupList, hk, h, ih]


theorem lookupList_eraseResult {α : Type} (c : List (Nat × α)) (i : Nat) (j : Nat) :
    lookupList (eraseResult c i) j = if j = i then none else lookupList c j := by
  induction c with
  | nil =>
    by_cases h : j = i <;> simp [eraseResult, lookupList, h]
  | cons kv rest ih =>
    obtain ⟨k, w⟩ := kv
    by_cases hk : k = i
    · subst hk
      by_cases h : j = k
      · subst h
        simp [eraseResult, lookupList, ih]
      · simp [eraseResult, lookupList, h, Ne.symm h, ih]
    · by_cases h : k = j
      · subst h
        simp [eraseResult, lookupList, hk, Ne.symm hk, ih]
      · simp [eraseResult, lookupList, hk, h, ih]


/-- A fold that preserves a predicate preserves it to the end. -/
theorem foldl_preserve {α β : Type} (P : β → Prop) (f : β → α → β) :
    ∀ (l : List α) (b : β), (∀ b' x, x ∈ l → P b' → P (f b' x)) → P b →
      P (l.foldl f b)
  | [], _, _, hb => hb
  | x :: rest, b, hstep, hb =>
    foldl_preserve P f rest (f b x)
      (fun b' y hy => hstep b' y (List.mem_cons_of_mem x hy))
      (hstep b x (List.mem_cons_self x rest) hb)


/-- Two folds agree when the step functions agree on all list elements. -/
theorem foldl_congr_mem {α β : Type} (f g : β → α → β) :
    ∀ (l : List α) (b : β), (∀ b' x, x ∈ l → f b' x = g b' x) →
      l.foldl f b = l.foldl g b
  | [], _, _ => rfl
  | x :: rest, b, h => by
    have hx := h b x (List.mem_cons_self x rest)
    simp only [List.foldl_cons, hx]
    exact foldl_congr_mem f g rest (g b x)
      (fun b' y hy => h b' y (List.mem_cons_of_mem x hy))


namespace Sched

variable {V E : Type} [Inhabited V]

theorem Recipe.depsAt_lt (g : Recipe V E) {i d : Nat} (h : d ∈ g.depsAt i) : d < i := by
  unfold Recipe.depsAt Recipe.runnableAt at h
  cases hg : g.runnableSequence.get? i with
  | some r =>
    rw [hg] at h
    exact g.deps_lt i r hg d h
  | none =>
    rw [hg] at h
    simp [defaultRunnable, Runnable.dependencies] at h


theorem mem_dependencies {r : Runnable V E} {j : Nat} :
    j ∈ r.dependencies ↔ Input.ref j ∈ r.inputs := by
  unfold Runnable.dependencies
  rw [List.mem_dedup, List.mem_filterMap]
  constructor
  · rintro ⟨x, hx, he⟩
    cases x with
    | ref k =>
      simp at he
      subst he
      exact hx
    | raw v => simp at he
  · intro h
    exact ⟨Input.ref j, h, rfl⟩


theorem mem_depLook_addDependent {m : List (Nat × List Nat)} {d t d' x : Nat} :
    x ∈ depLook (addDependent m d t) d' ↔
      x ∈ depLook m d' ∨ (d' = d ∧ x = t) := by
  induction m with
  | nil =>
    by_cases h : d' = d
    · subst h
      simp [addDependent, depLook, lookupList, eq_comm]
    · simp [addDependent, depLook, lookupList, h, Ne.symm h]
  | cons kv rest ih =>
    obtain ⟨k, l⟩ := kv
    by_cases hk : k = d
    · subst hk
      by_cases h : k = d'
      · subst h
        by_cases ht : t ∈ l
        · simp only [addDependent, if_pos rfl, if_pos ht, depLook, lookupList,
            Option.getD_some, true_and]
          constructor
          · exact fun hx => Or.inl hx
          · rintro (hx | rfl)
            · exact hx
            · exact ht
        · simp [addDependent, depLook, lookupList, ht, or_comm]
      · simp [addDependent, depLook, lookupList, h, Ne.symm h]
    · by_cases h : k = d'
      · subst h
        simp [addDependent, depLook, lookupList, hk, Ne.symm hk]
      · simp only [addDependent, if_neg hk, depLook, lookupList, if_neg h]
        exact ih


theorem buildGraphF_fuel (g : Recipe V E) :
    ∀ (r f₁ f₂ : Nat) (acc : BuildState), r < f₁ → r < f₂ →
      buildGraphF g f₁ r acc = buildGraphF g f₂ r acc := by
  intro r
  induction r using Nat.strong_induction_on with
  | _ r ih =>
    intro f₁ f₂ acc h₁ h₂
    match f₁, h₁ with
    | a + 1, h₁ =>
      match f₂, h₂ with
      | b + 1, h₂ =>
        simp only [buildGraphF]
        by_cases hr : r ∈ acc.neededRunnables
        · simp [hr]
        · simp only [hr, if_false]
          apply foldl_congr_mem
          intro a' d hd
          have hdr : d < r := g.depsAt_lt hd
          exact ih d hdr a b _ (by omega) (by omega)


theorem buildGraph_eq (g : Recipe V E) (r : Nat) (acc : BuildState) :
    buildGraph g r acc =
      if r ∈ acc.neededRunnables then acc
      else
        (g.depsAt r).foldl
          (fun a d =>
            buildGraph g d
              { a with runnableDependents := addDependent a.runnableDependents d r })
          { acc with neededRunnables := r :: acc.neededRunnables } := by
  unfold buildGraph
  simp only [buildGraphF]
  by_cases hr : r ∈ acc.neededRunnables
  · simp [hr]
  · simp only [hr, if_false]
    apply foldl_congr_mem
    intro a' d hd
    have hdr : d < r := g.depsAt_lt hd
    exact buildGraphF_fuel g d r (d + 1) _ hdr (Nat.lt_succ_self d)


/-- A fold whose every step establishes a property for its own element and
preserves it for the others establishes it for every element. -/
theorem foldl_mem_each {α β : Type} (P : β → α → Prop) (f : β → α → β) :
    ∀ (l : List α) (b : β),
      (∀ b' x y, P b' y → P (f b' x) y) →
      (∀ b' x, x ∈ l → P (f b' x) x) →
      ∀ y ∈ l, P (l.foldl f b) y
  | [], _, _, _, y, hy => absurd hy (List.not_mem_nil y)
  | x :: rest, b, hmono, hest, y, hy => by
    rcases List.mem_cons.mp hy with h | hy'
    · subst h
      exact foldl_preserve (fun b' => P b' y) f rest (f b y)
        (fun b' z _ hp => hmono b' z y hp)
        (hest b y (List.mem_cons_self y rest))
    · exact foldl_mem_each P f rest (f b x) hmono
        (fun b' x' hx' => hest b' x' (List.mem_cons_of_mem x hx')) y hy'


theorem BuildState.le_refl (a : BuildState) : BuildState.le a a :=
  ⟨fun _ h => h, fun _ _ h => h⟩


theorem BuildState.le_trans {a b c : BuildState} (h1 : BuildState.le a b)
    (h2 : BuildState.le b c) : BuildState.le a c :=
  ⟨fun _ h => h2.1 (h1.1 h), fun d _ h => h2.2 d (h1.2 d h)⟩


theorem addDependent_le (a : BuildState) (d t : Nat) :
    BuildState.le a ⟨a.neededRunnables, addDependent a.runnableDependents d t⟩ :=
  ⟨fun _ h => h, fun _ _ hx => mem_depLook_addDependent.mpr (Or.inl hx)⟩


theorem buildGraph_le (g : Recipe V E) :
    ∀ (r : Nat) (acc : BuildState), BuildState.le acc (buildGraph g r acc) := by
  intro r
  induction r using Nat.strong_induction_on with
  | _ r ih =>
    intro acc
    rw [buildGraph_eq]
    by_cases hr : r ∈ acc.neededRunnables
    · simp only [if_pos hr]
      exact BuildState.le_refl acc
    · simp only [if_neg hr]
      refine foldl_preserve (fun (b : BuildState) => BuildState.le acc b) _ _ _
        (fun b' x hx hb' => ?_) ?_
      · refine BuildState.le_trans hb' (BuildState.le_trans (addDependent_le b' x r) ?_)
        exact ih x (g.depsAt_lt hx) _
      · exact ⟨fun i hi => List.mem_cons_of_mem r hi, fun _ _ h => h⟩


theorem buildGraph_self_mem (g : Recipe V E) :
    ∀ (r : Nat) (acc : BuildState), r ∈ (buildGraph g r acc).neededRunnables := by
  intro r acc
  rw [buildGraph_eq]
  by_cases hr : r ∈ acc.neededRunnables
  · simp only [if_pos hr]
    exact hr
  · simp only [if_neg hr]
    refine foldl_preserve (fun (b : BuildState) => r ∈ b.neededRunnables) _ _ _
      (fun b' x hx hb' => ?_) (List.mem_cons_self r _)
    exact (BuildState.le_trans (addDependent_le b' x r)
      (buildGraph_le g x _)).1 hb'


theorem buildGraph_needed_sound (g : Recipe V E) (P : Nat → Prop)
    (hstep : ∀ x y, P x → y ∈ g.depsAt x → P y) :
    ∀ (r : Nat) (acc : BuildState), (∀ i ∈ acc.neededRunnables, P i) → P r →
      ∀ i ∈ (buildGraph g r acc).neededRunnables, P i := by
  intro r
  induction r using Nat.strong_induction_on with
  | _ r ih =>
    intro acc hacc hr
    rw [buildGraph_eq]
    by_cases hm : r ∈ acc.neededRunnables
    · simp only [if_pos hm]
      exact hacc
    · simp only [if_neg hm]
      refine foldl_preserve (fun (b : BuildState) => ∀ i ∈ b.neededRunnables, P i) _ _ _
        (fun b' x hx hb' => ?_) ?_
      · exact ih x (g.depsAt_lt hx) _ hb' (hstep r x hr hx)
      · intro i hi
        rcases List.mem_cons.mp hi with rfl | hi'
        · exact hr
        · exact hacc i hi'


theorem Processed.mono {g : Recipe V E} {a b : BuildState} {t : Nat}
    (hle : BuildState.le a b) (hp : Processed g a t) : Processed g b t :=
  fun d hd => ⟨hle.1 (hp d hd).1, hle.2 d (hp d hd).2⟩


theorem buildGraph_processed (g : Recipe V E) :
    ∀ (r : Nat) (acc : BuildState) (t : Nat),
      t ∈ (buildGraph g r acc).neededRunnables →
      t ∈ acc.neededRunnables ∨ Processed g (buildGraph g r acc) t := by
  intro r
  induction r using Nat.strong_induction_on with
  | _ r ih =>
    intro acc t ht
    by_cases hm : r ∈ acc.neededRunnables
    · rw [buildGraph_eq, if_pos hm] at ht
      exact Or.inl ht
    · rw [buildGraph_eq, if_neg hm] at ht ⊢
      have hstep_le : ∀ (b' : BuildState) (x : Nat),
          BuildState.le b'
            (buildGraph g x
              ⟨b'.neededRunnables, addDependent b'.runnableDependents x r⟩) :=
        fun b' x => BuildState.le_trans (addDependent_le b' x r) (buildGraph_le g x _)
      -- every processed dependency of r ends up needed, with r recorded
      have hA : ∀ d ∈ g.depsAt r,
          d ∈ ((g.depsAt r).foldl
              (fun a d =>
                buildGraph g d
                  { a with runnableDependents := addDependent a.runnableDependents d r })
              { acc with neededRunnables := r :: acc.neededRunnables }).neededRunnables ∧
          r ∈ depLook ((g.depsAt r).foldl
              (fun a d =>
                buildGraph g d
                  { a with runnableDependents := addDependent a.runnableDependents d r })
              { acc with neededRunnables := r :: acc.neededRunnables }).runnableDependents d := by
        refine foldl_mem_each
          (fun (a : BuildState) (d : Nat) =>
            d ∈ a.neededRunnables ∧ r ∈ depLook a.runnableDependents d)
          _ _ _ (fun b' x y hp => ?_) (fun b' x hx => ?_)
        · exact ⟨(hstep_le b' x).1 hp.1, (hstep_le b' x).2 y hp.2⟩
        · constructor
          · exact buildGraph_self_mem g x _
          · refine (buildGraph_le g x _).2 x ?_
            exact mem_depLook_addDependent.mpr (Or.inr ⟨rfl, rfl⟩)
      have hB := foldl_preserve
        (fun (a : BuildState) => ∀ t' ∈ a.neededRunnables,
          t' = r ∨ t' ∈ acc.neededRunnables ∨ Processed g a t')
        (fun (a : BuildState) (d : Nat) =>
          buildGraph g d
            { a with runnableDependents := addDependent a.runnableDependents d r })
        (g.depsAt r) { acc with neededRunnables := r :: acc.neededRunnables }
        (fun b' x hx hb' => by
          intro t' ht'
          rcases ih x (g.depsAt_lt hx) _ t' ht' with hold | hproc
          · rcases hb' t' hold with h1 | h2 | h3
            · exact Or.inl h1
            · exact Or.inr (Or.inl h2)
            · exact Or.inr (Or.inr (h3.mono (hstep_le b' x)))
          · exact Or.inr (Or.inr hproc))
        (by
          intro t' ht'
          rcases List.mem_cons.mp ht' with rfl | h
          · exact Or.inl rfl
          · exact Or.inr (Or.inl h))
      rcases hB t ht with rfl | h2 | h3
      · exact Or.inr fun d hd => hA d hd
      · exact Or.inl h2
      · exact Or.inr h3


theorem buildGraph_dependents_sound (g : Recipe V E) :
    ∀ (r : Nat) (acc : BuildState),
      (∀ d t, t ∈ depLook acc.runnableDependents d →
        t ∈ acc.neededRunnables ∧ d ∈ g.depsAt t) →
      ∀ d t, t ∈ depLook (buildGraph g r acc).runnableDependents d →
        t ∈ (buildGraph g r acc).neededRunnables ∧ d ∈ g.depsAt t := by
  intro r
  induction r using Nat.strong_induction_on with
  | _ r ih =>
    intro acc hacc
    by_cases hm : r ∈ acc.neededRunnables
    · rw [buildGraph_eq, if_pos hm]
      exact hacc
    · rw [buildGraph_eq, if_neg hm]
      have h := foldl_preserve
        (fun (a : BuildState) => r ∈ a.neededRunnables ∧
          ∀ d t, t ∈ depLook a.runnableDependents d →
            t ∈ a.neededRunnables ∧ d ∈ g.depsAt t)
        (fun (a : BuildState) (d : Nat) =>
          buildGraph g d
            { a with runnableDependents := addDependent a.runnableDependents d r })
        (g.depsAt r) { acc with neededRunnables := r :: acc.neededRunnables }
        (fun b' x hx hb' => by
          constructor
          · exact (BuildState.le_trans (addDependent_le b' x r)
              (buildGraph_le g x _)).1 hb'.1
          · refine ih x (g.depsAt_lt hx) _ ?_
            intro d t ht
            rcases mem_depLook_addDependent.mp ht with hold | ⟨rfl, rfl⟩
            · exact (hb'.2 d t hold).imp id id
            · exact ⟨hb'.1, hx⟩)
        (by
          refine ⟨List.mem_cons_self r _, fun d t ht => ?_⟩
          exact ⟨List.mem_cons_of_mem r (hacc d t ht).1, (hacc d t ht).2⟩)
      exact h.2


theorem outputs_mem_needed (g : Recipe V E) :
    ∀ o ∈ g.outputs, o ∈ neededRunnables g := by
  refine foldl_mem_each (fun (a : BuildState) (o : Nat) => o ∈ a.neededRunnables)
    (fun acc o => buildGraph g o acc) g.outputs ⟨[], []⟩
    (fun b' x y hp => ?_) (fun b' x _ => ?_)
  · exact (buildGraph_le g x b').1 hp
  · exact buildGraph_self_mem g x b'


theorem needed_processed (g : Recipe V E) :
    ∀ t ∈ neededRunnables g, Processed g (buildAll g) t := by
  refine foldl_preserve
    (fun (a : BuildState) => ∀ t ∈ a.neededRunnables, Processed g a t)
    (fun acc o => buildGraph g o acc) g.outputs ⟨[], []⟩
    (fun a o _ ha => ?_) (fun t ht => absurd ht (List.not_mem_nil t))
  intro t ht
  rcases buildGraph_processed g o a t ht with hold | hproc
  · exact (ha t hold).mono (buildGraph_le g o a)
  · exact hproc


theorem needed_closed {g : Recipe V E} {t d : Nat} (ht : t ∈ neededRunnables g)
    (hd : d ∈ g.depsAt t) : d ∈ neededRunnables g :=
  (needed_processed g t ht d hd).1


theorem mem_dependents_of_needed {g : Recipe V E} {t d : Nat}
    (ht : t ∈ neededRunnables g) (hd : d ∈ g.depsAt t) :
    t ∈ runnableDependents g d :=
  (needed_processed g t ht d hd).2


theorem dependents_sound {g : Recipe V E} {t d : Nat}
    (h : t ∈ runnableDependents g d) :
    t ∈ neededRunnables g ∧ d ∈ g.depsAt t := by
  refine foldl_preserve
    (fun (a : BuildState) => ∀ d t, t ∈ depLook a.runnableDependents d →
      t ∈ a.neededRunnables ∧ d ∈ g.depsAt t)
    (fun (acc : BuildState) (o : Nat) => buildGraph g o acc) g.outputs ⟨[], []⟩
    (fun a o _ ha => buildGraph_dependents_sound g o a ha)
    (fun d t ht => absurd ht (by simp [depLook, lookupList])) d t h


theorem needed_iff_reaches (g : Recipe V E) (i : Nat) :
    i ∈ neededRunnables g ↔ Reaches g i := by
  constructor
  · refine foldl_preserve
      (fun (a : BuildState) => ∀ i ∈ a.neededRunnables, Reaches g i)
      (fun (acc : BuildState) (o : Nat) => buildGraph g o acc) g.outputs ⟨[], []⟩
      (fun a o ho ha => ?_) (fun i hi => absurd hi (List.not_mem_nil i)) i
    exact buildGraph_needed_sound g (Reaches g)
      (fun x y hx hy => hx.step hy) o a ha (Reaches.out ho)
  · intro h
    induction h with
    | out ho => exact outputs_mem_needed g _ ho
    | step _ hd ih => exact needed_closed ih hd


theorem reaches_lt {g : Recipe V E} {i : Nat} (h : Reaches g i) :
    i < g.runnableSequence.length := by
  induction h with
  | out ho => exact g.outputs_lt _ ho
  | step _ hd ih => exact Nat.lt_trans (g.depsAt_lt hd) ih


theorem needed_lt {g : Recipe V E} {i : Nat} (h : i ∈ neededRunnables g) :
    i < g.runnableSequence.length :=
  reaches_lt ((needed_iff_reaches g i).mp h)


theorem dependents_iff (g : Recipe V E) (t d : Nat) :
    t ∈ runnableDependents g d ↔
      (t ∈ neededRunnables g ∧ d ∈ g.depsAt t) :=
  ⟨dependents_sound, fun ⟨h1, h2⟩ => mem_dependents_of_needed h1 h2⟩


theorem scanF_some {n : Nat} {needed : List Nat} :
    ∀ {fuel cur c : Nat}, scanF n needed fuel cur = some c →
      cur ≤ c ∧ c < n ∧ c ∈ needed ∧ ∀ j, cur ≤ j → j < c → j ∉ needed := by
  intro fuel
  induction fuel with
  | zero =>
    intro cur c h
    exact absurd h (by simp [scanF])
  | succ f ih =>
    intro cur c h
    simp only [scanF] at h
    by_cases hn : cur < n
    · rw [if_pos hn] at h
      by_cases hm : cur ∈ needed
      · rw [if_pos hm] at h
        injection h with h
        subst h
        exact ⟨Nat.le_refl _, hn, hm,
          fun j h1 h2 => absurd (Nat.lt_of_le_of_lt h1 h2) (Nat.lt_irrefl _)⟩
      · rw [if_neg hm] at h
        obtain ⟨h1, h2, h3, h4⟩ := ih h
        refine ⟨by omega, h2, h3, fun j hj1 hj2 => ?_⟩
        rcases Nat.eq_or_lt_of_le hj1 with he | hj1'
        · rw [← he]
          exact hm
        · exact h4 j hj1' hj2
    · rw [if_neg hn] at h
      exact absurd h (by simp)


theorem scanF_none {n : Nat} {needed : List Nat} :
    ∀ {fuel cur : Nat}, scanF n needed fuel cur = none →
      ∀ j, cur ≤ j → j < n → j < cur + fuel → j ∉ needed := by
  intro fuel
  induction fuel with
  | zero =>
    intro cur _ j h1 _ h3
    omega
  | succ f ih =>
    intro cur h j hj1 hj2 hj3
    simp only [scanF] at h
    by_cases hn : cur < n
    · rw [if_pos hn] at h
      by_cases hm : cur ∈ needed
      · rw [if_pos hm] at h
        exact absurd h (by simp)
      · rw [if_neg hm] at h
        rcases Nat.eq_or_lt_of_le hj1 with he | hj1'
        · rw [← he]
          exact hm
        · exact ih h j hj1' hj2 (by omega)
    · omega


theorem scanF_none_intro {n : Nat} {needed : List Nat} :
    ∀ (fuel cur : Nat), (∀ j, cur ≤ j → j < n → j ∉ needed) →
      scanF n needed fuel cur = none := by
  intro fuel
  induction fuel with
  | zero => intro cur _; rfl
  | succ f ih =>
    intro cur h
    simp only [scanF]
    by_cases hn : cur < n
    · rw [if_pos hn, if_neg (h cur (Nat.le_refl cur) hn)]
      exact ih (cur + 1) (fun j h1 h2 => h j (by omega) h2)
    · rw [if_neg hn]


theorem nextNeeded_some {g : Recipe V E} {cur c : Nat}
    (h : nextNeeded g cur = some c) :
    cur ≤ c ∧ c < g.runnableSequence.length ∧ c ∈ neededRunnables g ∧
      ∀ j, cur ≤ j → j < c → j ∉ neededRunnables g :=
  scanF_some h


theorem nextNeeded_none {g : Recipe V E} {cur : Nat}
    (h : nextNeeded g cur = none) :
    ∀ j, cur ≤ j → j < g.runnableSequence.length → j ∉ neededRunnables g := by
  intro j h1 h2
  exact scanF_none h j h1 h2 (by omega)


theorem nextNeeded_none_intro {g : Recipe V E} {cur : Nat}
    (h : ∀ j, cur ≤ j → j < g.runnableSequence.length → j ∉ neededRunnables g) :
    nextNeeded g cur = none :=
  scanF_none_intro _ _ h


theorem lookupList_evict (g : Recipe V E) (completed : List Nat) :
    ∀ (deps : List Nat) (cache : List (Nat × V)) (j : Nat),
      lookupList (evict g deps completed cache) j =
        if j ∈ deps ∧ j ∉ g.outputs ∧ ∀ t ∈ runnableDependents g j, t ∈ completed
        then none else lookupList cache j := by
  intro deps
  induction deps with
  | nil =>
    intro cache j
    simp [evict]
  | cons d rest ih =>
    intro cache j
    have hstep : evict g (d :: rest) completed cache =
        evict g rest completed
          (if d ∈ g.outputs then cache
           else if ∀ t ∈ runnableDependents g d, t ∈ completed then eraseResult cache d
           else cache) := rfl
    rw [hstep, ih]
    have hSTEP : lookupList
        (if d ∈ g.outputs then cache
         else if ∀ t ∈ runnableDependents g d, t ∈ completed then eraseResult cache d
         else cache) j =
        if j = d ∧ d ∉ g.outputs ∧ ∀ t ∈ runnableDependents g d, t ∈ completed
        then none else lookupList cache j := by
      by_cases hdo : d ∈ g.outputs
      · rw [if_pos hdo, if_neg (by rintro ⟨-, h2, -⟩; exact h2 hdo)]
      · by_cases hdd : ∀ t ∈ runnableDependents g d, t ∈ completed
        · rw [if_neg hdo, if_pos hdd, lookupList_eraseResult]
          by_cases hjd : j = d
          · rw [if_pos hjd, if_pos ⟨hjd, hdo, hdd⟩]
          · rw [if_neg hjd, if_neg (by rintro ⟨h1, -, -⟩; exact hjd h1)]
        · rw [if_neg hdo, if_neg hdd, if_neg (by rintro ⟨-, -, h3⟩; exact hdd h3)]
    rw [hSTEP]
    by_cases hC : j ∉ g.outputs ∧ ∀ t ∈ runnableDependents g j, t ∈ completed
    · by_cases hjr : j ∈ rest
      · rw [if_pos ⟨hjr, hC.1, hC.2⟩, if_pos ⟨List.mem_cons_of_mem d hjr, hC.1, hC.2⟩]
      · rw [if_neg (fun h => hjr h.1)]
        by_cases hjd : j = d
        · subst hjd
          rw [if_pos ⟨rfl, hC.1, hC.2⟩, if_pos ⟨List.mem_cons_self j rest, hC.1, hC.2⟩]
        · rw [if_neg (fun h => hjd h.1), if_neg (by
            rintro ⟨h1, -, -⟩
            rcases List.mem_cons.mp h1 with he | hm
            · exact hjd he
            · exact hjr hm)]
    · have hnc1 : ¬(j ∈ rest ∧ j ∉ g.outputs ∧
          ∀ t ∈ runnableDependents g j, t ∈ completed) :=
        fun h => hC ⟨h.2.1, h.2.2⟩
      have hnc2 : ¬(j ∈ d :: rest ∧ j ∉ g.outputs ∧
          ∀ t ∈ runnableDependents g j, t ∈ completed) :=
        fun h => hC ⟨h.2.1, h.2.2⟩
      have hnc3 : ¬(j = d ∧ d ∉ g.outputs ∧
          ∀ t ∈ runnableDependents g d, t ∈ completed) := by
        rintro ⟨rfl, h2, h3⟩
        exact hC ⟨h2, h3⟩
      rw [if_neg hnc1, if_neg hnc3, if_neg hnc2]


theorem runOneTick_cursor {g : Recipe V E} {s s' : ExecState V}
    (h : runOneTick g s = .ok s') :
    s.cursor < s'.cursor ∧ s'.cursor ≤ g.runnableSequence.length := by
  unfold runOneTick at h
  split at h
  next hn => exact Except.noConfusion h
  next c hn =>
    split at h
    next e hr => exact Except.noConfusion h
    next result hr =>
      injection h with h
      obtain ⟨h1, h2, -, -⟩ := nextNeeded_some hn
      rw [← h]
      exact ⟨Nat.lt_succ_of_le h1, h2⟩


theorem eval_eq (g : Recipe V E) (i : Nat) :
    eval g i =
      match (g.runnableAt i).alg ((g.runnableAt i).inputs.map (evalInput g)) with
      | .ok v => v
      | .error _ => default := by
  have hargs : ((g.runnableAt i).inputs.attach.map fun x =>
      match x with
      | ⟨.ref j, _⟩ => eval g j
      | ⟨.raw v, _⟩ => v) = (g.runnableAt i).inputs.map (evalInput g) := by
    have h1 : ∀ x : {a // a ∈ (g.runnableAt i).inputs},
        (match x with
         | ⟨.ref j, _⟩ => eval g j
         | ⟨.raw v, _⟩ => v) = evalInput g x.val := by
      rintro ⟨inp, hmem⟩
      cases inp <;> rfl
    rw [List.map_congr_left fun x _ => h1 x]
    exact List.attach_map_val _ _
  rw [eval, hargs]


theorem inv_execution (g : Recipe V E) : Inv g (Recipe.execution g) := by
  refine ⟨?_, ?_, ?_, ?_, ?_, ?_, ?_, ?_⟩
  · exact fun i hi => absurd hi (List.not_mem_nil i)
  · exact fun i hi => absurd hi (List.not_mem_nil i)
  · exact fun i _ h => absurd h (Nat.not_lt_zero i)
  · exact Nat.zero_le _
  · intro i
    simp [Recipe.execution, lookupList]
  · intro i v hv
    exact absurd hv (by simp [Recipe.execution, lookupList])
  · intro o
    simp [Recipe.execution, List.mem_dedup]
  · exact List.nodup_dedup _


theorem resolveInputs_ok {V E : Type} {prev : List (Nat × V)} (f : Nat → V) :
    ∀ (inputs : List (Input V)),
      (∀ j, Input.ref j ∈ inputs → lookupList prev j = some (f j)) →
      (resolveInputs inputs prev : Except (TickErr E) (List V)) =
        .ok (inputs.map fun inp =>
          match inp with
          | .ref j => f j
          | .raw v => v)
  | [], _ => rfl
  | .ref j :: rest, h => by
    have hj := h j (List.mem_cons_self _ rest)
    simp only [resolveInputs, hj, List.map_cons]
    rw [resolveInputs_ok f rest (fun j' hj' => h j' (List.mem_cons_of_mem _ hj'))]
  | .raw v :: rest, h => by
    simp only [resolveInputs, List.map_cons]
    rw [resolveInputs_ok f rest (fun j' hj' => h j' (List.mem_cons_of_mem _ hj'))]


/-- Under the invariant, every dependency of the runnable the tick selects is
already completed and cached with its canonical value. -/
theorem lookup_dep_eval {g : Recipe V E} {s : ExecState V} (hs : Inv g s) {c : Nat}
    (hcn : c ∈ neededRunnables g) (hcc : s.cursor ≤ c)
    (hgap : ∀ j, s.cursor ≤ j → j < c → j ∉ neededRunnables g) :
    ∀ j, Input.ref j ∈ (g.runnableAt c).inputs →
      lookupList s.completedResults j = some (eval g j) := by
  intro j hj
  have hjd : j ∈ g.depsAt c := mem_dependencies.mpr hj
  have hjlt : j < c := g.depsAt_lt hjd
  have hjn : j ∈ neededRunnables g := needed_closed hcn hjd
  have hjcur : j < s.cursor := by
    by_contra hge
    exact hgap j (by omega) hjlt hjn
  have hjcomp : j ∈ s.completedRunnables := hs.passed_completed j hjn hjcur
  have hcnotcomp : c ∉ s.completedRunnables := fun h =>
    absurd (hs.completed_lt c h) (by omega)
  have hcdep : c ∈ runnableDependents g j := mem_dependents_of_needed hcn hjd
  have hsome : (lookupList s.completedResults j).isSome :=
    (hs.cache_iff j).mpr ⟨hjcomp, Or.inr ⟨c, hcdep, hcnotcomp⟩⟩
  obtain ⟨v, hv⟩ := Option.isSome_iff_exists.mp hsome
  rw [hv, hs.cache_eval j v hv]


theorem run_match_eval {g : Recipe V E} {s : ExecState V} (hs : Inv g s) {c : Nat}
    (hcn : c ∈ neededRunnables g) (hcc : s.cursor ≤ c)
    (hgap : ∀ j, s.cursor ≤ j → j < c → j ∉ neededRunnables g) :
    (g.runnableAt c).run s.completedResults =
      match (g.runnableAt c).alg ((g.runnableAt c).inputs.map (evalInput g)) with
      | .ok v => .ok v
      | .error e => .error (.executionError e) := by
  unfold Runnable.run
  rw [resolveInputs_ok (eval g) _ (lookup_dep_eval hs hcn hcc hgap)]
  have hmap : ((g.runnableAt c).inputs.map fun inp =>
      match inp with
      | Input.ref j => eval g j
      | Input.raw v => v) = (g.runnableAt c).inputs.map (evalInput g) :=
    List.map_congr_left (fun a _ => by cases a <;> rfl)
  rw [hmap]


theorem run_ok_eval {g : Recipe V E} {s : ExecState V} (hs : Inv g s) {c : Nat}
    (hcn : c ∈ neededRunnables g) (hcc : s.cursor ≤ c)
    (hgap : ∀ j, s.cursor ≤ j → j < c → j ∉ neededRunnables g) {result : V}
    (hr : (g.runnableAt c).run s.completedResults = .ok result) :
    result = eval g c := by
  rw [run_match_eval hs hcn hcc hgap] at hr
  split at hr
  next v halg =>
    injection hr with hr
    rw [eval_eq g c, halg, hr]
  next e halg => exact Except.noConfusion hr


theorem run_ok_of_noFail {g : Recipe V E} {s : ExecState V} (hs : Inv g s) {c : Nat}
    (hcn : c ∈ neededRunnables g) (hcc : s.cursor ≤ c)
    (hgap : ∀ j, s.cursor ≤ j → j < c → j ∉ neededRunnables g)
    (hnf : NoFail g) :
    (g.runnableAt c).run s.completedResults = .ok (eval g c) := by
  obtain ⟨v, hv⟩ := hnf c ((g.runnableAt c).inputs.map (evalInput g))
  have he : eval g c = v := by
    rw [eval_eq g c, hv]
  rw [run_match_eval hs hcn hcc hgap, hv, he]


theorem runOneTick_ok_cases {g : Recipe V E} {s s' : ExecState V}
    (h : runOneTick g s = .ok s') :
    ∃ c result, nextNeeded g s.cursor = some c ∧
      (g.runnableAt c).run s.completedResults = .ok result ∧
      s' = ⟨c + 1, c :: s.completedRunnables,
        evict g (g.depsAt c) (c :: s.completedRunnables)
          (insertResult s.completedResults c result),
        s.incompleteOutputs.erase c⟩ := by
  unfold runOneTick at h
  split at h
  next hn => exact Except.noConfusion h
  next c hn =>
    split at h
    next e hr => exact Except.noConfusion h
    next result hr =>
      injection h with h
      exact ⟨c, result, hn, hr, h.symm⟩


theorem inv_runOneTick {g : Recipe V E} {s s' : ExecState V} (hs : Inv g s)
    (h : runOneTick g s = .ok s') : Inv g s' := by
  obtain ⟨c, result, hn, hr, rfl⟩ := runOneTick_ok_cases h
  obtain ⟨hcc, hclen, hcn, hgap⟩ := nextNeeded_some hn
  have hresult : result = eval g c := run_ok_eval hs hcn hcc hgap hr
  have hcnotcomp : c ∉ s.completedRunnables := fun hm =>
    absurd (hs.completed_lt c hm) (by omega)
  have hdepc_late : ∀ t ∈ runnableDependents g c, t ∉ c :: s.completedRunnables := by
    intro t htc hmem
    have hlt : c < t := g.depsAt_lt (dependents_sound htc).2
    rcases List.mem_cons.mp hmem with rfl | hmem'
    · omega
    · have := hs.completed_lt t hmem'
      omega
  have hcsome : c ∈ g.outputs ∨
      ∃ d ∈ runnableDependents g c, d ∉ c :: s.completedRunnables := by
    cases (needed_iff_reaches g c).mp hcn with
    | out ho => exact Or.inl ho
    | step hre hdc =>
      rename_i t
      have htn : t ∈ neededRunnables g := (needed_iff_reaches g t).mpr hre
      have htdep : t ∈ runnableDependents g c := mem_dependents_of_needed htn hdc
      exact Or.inr ⟨t, htdep, hdepc_late t htdep⟩
  have hcnotdep : c ∉ g.depsAt c := fun hm => absurd (g.depsAt_lt hm) (Nat.lt_irrefl c)
  refine ⟨?_, ?_, ?_, ?_, ?_, ?_, ?_, ?_⟩ <;> dsimp only
  · intro i hi
    rcases List.mem_cons.mp hi with rfl | hi'
    · exact hcn
    · exact hs.completed_needed i hi'
  · intro i hi
    rcases List.mem_cons.mp hi with rfl | hi'
    · omega
    · have := hs.completed_lt i hi'
      omega
  · intro i hin hilt
    by_cases hic : i = c
    · subst hic
      exact List.mem_cons_self i _
    · have hiltc : i < c := by omega
      by_cases hicur : i < s.cursor
      · exact List.mem_cons_of_mem c (hs.passed_completed i hin hicur)
      · exact absurd hin (hgap i (by omega) hiltc)
  · omega
  · intro j
    rw [lookupList_evict, lookupList_insertResult]
    by_cases hjc : j = c
    · subst hjc
      rw [if_neg (fun hec => hcnotdep hec.1), if_pos rfl]
      exact ⟨fun _ => ⟨List.mem_cons_self j _, hcsome⟩, fun _ => rfl⟩
    · by_cases hEC : j ∈ g.depsAt c ∧ j ∉ g.outputs ∧
          ∀ t ∈ runnableDependents g j, t ∈ c :: s.completedRunnables
      · rw [if_pos hEC]
        refine iff_of_false (by simp) ?_
        rintro ⟨-, hor⟩
        rcases hor with ho | ⟨d, hd1, hd2⟩
        · exact hEC.2.1 ho
        · exact hd2 (hEC.2.2 d hd1)
      · rw [if_neg hEC, if_neg hjc, hs.cache_iff j]
        constructor
        · rintro ⟨hjcomp, hor⟩
          refine ⟨List.mem_cons_of_mem c hjcomp, ?_⟩
          rcases hor with ho | ⟨d, hd1, hd2⟩
          · exact Or.inl ho
          · by_cases hall : ∀ t ∈ runnableDependents g j, t ∈ c :: s.completedRunnables
            · have hdc : d = c := by
                rcases List.mem_cons.mp (hall d hd1) with he | hm
                · exact he
                · exact absurd hm hd2
              subst hdc
              have hjdep : j ∈ g.depsAt d := (dependents_sound hd1).2
              by_cases hjo : j ∈ g.outputs
              · exact Or.inl hjo
              · exact absurd ⟨hjdep, hjo, hall⟩ hEC
            · push_neg at hall
              obtain ⟨t, ht1, ht2⟩ := hall
              exact Or.inr ⟨t, ht1, ht2⟩
        · rintro ⟨hjcomp', hor⟩
          have hjcomp : j ∈ s.completedRunnables := by
            rcases List.mem_cons.mp hjcomp' with he | hm
            · exact absurd he hjc
            · exact hm
          refine ⟨hjcomp, ?_⟩
          rcases hor with ho | ⟨d, hd1, hd2⟩
          · exact Or.inl ho
          · exact Or.inr ⟨d, hd1, fun hm => hd2 (List.mem_cons_of_mem c hm)⟩
  · intro j v hv
    rw [lookupList_evict, lookupList_insertResult] at hv
    split at hv
    · exact absurd hv (by simp)
    · split at hv
      next hjc =>
        subst hjc
        injection hv with hv
        rw [← hv]
        exact hresult
      next hjc => exact hs.cache_eval j v hv
  · intro o
    rw [List.Nodup.mem_erase_iff hs.inc_nodup, hs.inc_iff o]
    constructor
    · rintro ⟨hne, ho, hnc⟩
      refine ⟨ho, fun hm => ?_⟩
      rcases List.mem_cons.mp hm with he | hm'
      · exact hne he
      · exact hnc hm'
    · rintro ⟨ho, hnc'⟩
      exact ⟨fun he => hnc' (he ▸ List.mem_cons_self c _), ho,
        fun hm => hnc' (List.mem_cons_of_mem c hm)⟩
  · exact List.Nodup.erase c hs.inc_nodup


theorem Reachable.inv {g : Recipe V E} {s : ExecState V} (h : Reachable g s) :
    Inv g s := by
  induction h with
  | execution => exact inv_execution g
  | tick _ ht ih => exact inv_runOneTick ih ht


/-- Once no output is incomplete, every needed runnable has run. -/
theorem complete_all_needed {g : Recipe V E} {s : ExecState V} (hs : Inv g s)
    (hc : s.incompleteOutputs = []) :
    ∀ i ∈ neededRunnables g, i ∈ s.completedRunnables := by
  intro i hin
  have hre := (needed_iff_reaches g i).mp hin
  clear hin
  induction hre with
  | out ho =>
    rename_i o
    by_contra hnc
    have hmem : o ∈ s.incompleteOutputs := (hs.inc_iff o).mpr ⟨ho, hnc⟩
    rw [hc] at hmem
    exact absurd hmem (List.not_mem_nil o)
  | step hre hdc ih =>
    rename_i t d
    have htlt := hs.completed_lt t ih
    have hdn : d ∈ neededRunnables g :=
      needed_closed ((needed_iff_reaches g t).mpr hre) hdc
    have hdlt : d < t := g.depsAt_lt hdc
    exact hs.passed_completed d hdn (by omega)


theorem runOneTick_progress {g : Recipe V E} {s : ExecState V} (hnf : NoFail g)
    (hs : Inv g s) (hinc : s.incompleteOutputs ≠ []) :
    ∃ s', runOneTick g s = .ok s' := by
  obtain ⟨o, ho⟩ := List.exists_mem_of_ne_nil s.incompleteOutputs hinc
  obtain ⟨ho_out, ho_nc⟩ := (hs.inc_iff o).mp ho
  have hon : o ∈ neededRunnables g := outputs_mem_needed g o ho_out
  have ho_lt : o < g.runnableSequence.length := needed_lt hon
  have ho_ge : s.cursor ≤ o := by
    by_contra hlt
    exact ho_nc (hs.passed_completed o hon (by omega))
  cases hn : nextNeeded g s.cursor with
  | none => exact absurd hon (nextNeeded_none hn o ho_ge ho_lt)
  | some c =>
    obtain ⟨hcc, hclen, hcn, hgap⟩ := nextNeeded_some hn
    have hr := run_ok_of_noFail hs hcn hcc hgap hnf
    exact ⟨⟨c + 1, c :: s.completedRunnables,
      evict g (g.depsAt c) (c :: s.completedRunnables)
        (insertResult s.completedResults c (eval g c)),
      s.incompleteOutputs.erase c⟩, by simp only [runOneTick, hn, hr]⟩


/-- Once every needed runnable has run, a further tick exhausts the iterator:
the scan raises `StopIteration`. -/
theorem runOneTick_stopIteration {g : Recipe V E} {s : ExecState V} (hs : Inv g s)
    (hall : ∀ i ∈ neededRunnables g, i ∈ s.completedRunnables) :
    runOneTick g s = .error .stopIteration := by
  have hn : nextNeeded g s.cursor = none :=
    nextNeeded_none_intro (fun j hj1 _ hjn =>
      absurd (hs.completed_lt j (hall j hjn)) (by omega))
  simp only [runOneTick, hn]


theorem saveEach_ok {V E : Type} {cache : List (Nat × V)} (f : Nat → V) :
    ∀ (l : List (Nat × String)),
      (∀ op ∈ l, lookupList cache op.1 = some (f op.1)) →
      (saveEach l cache : Except (TickErr E) (List (String × V))) =
        .ok (l.map fun op => (op.2, f op.1))
  | [], _ => rfl
  | (o, p) :: rest, h => by
    have ho := h (o, p) (List.mem_cons_self _ rest)
    simp only [saveEach, ho, List.map_cons]
    rw [saveEach_ok f rest (fun op hop => h op (List.mem_cons_of_mem _ hop))]


theorem save_ok {g : Recipe V E} {s : ExecState V} (hs : Inv g s)
    (hc : s.incompleteOutputs = []) :
    save g s =
      .ok ((g.outputs.zip g.outputPaths).map fun op => (op.2, eval g op.1)) := by
  unfold save
  rw [if_pos hc]
  refine saveEach_ok (eval g) _ (fun op hop => ?_)
  have ho_out : op.1 ∈ g.outputs := (List.of_mem_zip hop).1
  have ho_comp : op.1 ∈ s.completedRunnables := by
    by_contra hnc
    have hmem : op.1 ∈ s.incompleteOutputs := (hs.inc_iff _).mpr ⟨ho_out, hnc⟩
    rw [hc] at hmem
    exact absurd hmem (List.not_mem_nil _)
  have hsome := (hs.cache_iff op.1).mpr ⟨ho_comp, Or.inl ho_out⟩
  obtain ⟨v, hv⟩ := Option.isSome_iff_exists.mp hsome
  rw [hv, hs.cache_eval _ v hv]


theorem runAndSave_complete {g : Recipe V E} {s : ExecState V}
    (hc : s.incompleteOutputs = []) : runAndSave g s = save g s := by
  unfold runAndSave
  cases g.runnableSequence.length - s.cursor with
  | zero => simp only [runAndSaveF, if_pos hc]
  | succ f => simp only [runAndSaveF, if_pos hc]

theorem runAndSaveF_ok {g : Recipe V E} (hnf : NoFail g) :
    ∀ (fuel : Nat) (s : ExecState V), Inv g s →
      g.runnableSequence.length - s.cursor ≤ fuel →
      runAndSaveF g fuel s =
        .ok ((g.outputs.zip g.outputPaths).map fun op => (op.2, eval g op.1)) := by
  intro fuel
  induction fuel with
  | zero =>
    intro s hs hk
    have hcomp : s.incompleteOutputs = [] := by
      by_contra hne
      obtain ⟨o, ho⟩ := List.exists_mem_of_ne_nil _ hne
      obtain ⟨ho_out, ho_nc⟩ := (hs.inc_iff o).mp ho
      have hon := outputs_mem_needed g o ho_out
      have := needed_lt hon
      have hle := hs.cursor_le
      exact ho_nc (hs.passed_completed o hon (by omega))
    simp only [runAndSaveF, if_pos hcomp]
    exact save_ok hs hcomp
  | succ k ih =>
    intro s hs hk
    by_cases hcomp : s.incompleteOutputs = []
    · simp only [runAndSaveF, if_pos hcomp]
      exact save_ok hs hcomp
    · simp only [runAndSaveF, if_neg hcomp]
      obtain ⟨s', hts'⟩ := runOneTick_progress hnf hs hcomp
      rw [hts']
      have hcur := runOneTick_cursor hts'
      exact ih s' (inv_runOneTick hs hts') (by omega)

theorem runAndSave_ok {g : Recipe V E} (hnf : NoFail g) (s : ExecState V)
    (hs : Inv g s) :
    runAndSave g s =
      .ok ((g.outputs.zip g.outputPaths).map fun op => (op.2, eval g op.1)) :=
  runAndSaveF_ok hnf _ s hs (Nat.le_refl _)

end Sched

namespace Runn

theorem zip_get? {α β : Type} :
    ∀ (l₁ : List α) (l₂ : List β) (k : Nat),
      (l₁.zip l₂).get? k =
        match l₁.get? k, l₂.get? k with
        | some a, some b => some (a, b)
        | _, _ => none
  | [], _, _ => rfl
  | _ :: _, [], 0 => rfl
  | _ :: l₁, [], k + 1 => by
    rw [List.get?_cons_succ]
    cases l₁.get? k <;> rfl
  | _ :: _, _ :: _, 0 => rfl
  | _ :: l₁, _ :: l₂, k + 1 => zip_get? l₁ l₂ k

theorem mapFormat_spec {V E Ann : Type} (reg : Ann → Option (String → V)) :
    ∀ (l : List (RawIn V × Ann)) (bs : List (BoundIn V Ann)),
      (mapFormat reg l : Except (RunnableErr E) (List (BoundIn V Ann))) = .ok bs →
      bs.length = l.length ∧
      ∀ k pa, l.get? k = some pa →
        (∀ loc, pa.1 = .file loc →
          (reg pa.2).isSome ∧ bs.get? k = some (.typedFile loc pa.2)) ∧
        (∀ i, pa.1 = .task i → bs.get? k = some (.task i)) ∧
        (∀ v, pa.1 = .value v → bs.get? k = some (.value v)) := by
  intro l
  induction l with
  | nil =>
    intro bs h
    injection h with h
    subst h
    exact ⟨rfl, fun k pa hpa => absurd hpa (by simp)⟩
  | cons pa0 rest ih =>
    intro bs h
    obtain ⟨ra0, ann0⟩ := pa0
    cases ra0 with
    | file loc0 =>
      simp only [mapFormat] at h
      split at h
      next hreg => exact Except.noConfusion h
      next loader hreg =>
        split at h
        next e hrest => exact Except.noConfusion h
        next bs' hrest =>
          injection h with h
          subst h
          obtain ⟨hlen, hk⟩ := ih bs' hrest
          refine ⟨by simp [hlen], ?_⟩
          intro k pa hpa
          cases k with
          | zero =>
            simp only [List.get?] at hpa
            injection hpa with hpa
            subst hpa
            refine ⟨fun loc' hl => ?_, fun i hi => absurd hi (by simp),
              fun v hv => absurd hv (by simp)⟩
            injection hl with hl
            subst hl
            exact ⟨by rw [hreg]; rfl, rfl⟩
          | succ k' =>
            simp only [List.get?] at hpa ⊢
            exact hk k' pa hpa
    | task i0 =>
      simp only [mapFormat] at h
      split at h
      next e hrest => exact Except.noConfusion h
      next bs' hrest =>
        injection h with h
        subst h
        obtain ⟨hlen, hk⟩ := ih bs' hrest
        refine ⟨by simp [hlen], ?_⟩
        intro k pa hpa
        cases k with
        | zero =>
          simp only [List.get?] at hpa
          injection hpa with hpa
          subst hpa
          refine ⟨fun loc' hl => absurd hl (by simp), fun i hi => ?_,
            fun v hv => absurd hv (by simp)⟩
          injection hi with hi
          subst hi
          rfl
        | succ k' =>
          simp only [List.get?] at hpa ⊢
          exact hk k' pa hpa
    | value v0 =>
      simp only [mapFormat] at h
      split at h
      next e hrest => exact Except.noConfusion h
      next bs' hrest =>
        injection h with h
        subst h
        obtain ⟨hlen, hk⟩ := ih bs' hrest
        refine ⟨by simp [hlen], ?_⟩
        intro k pa hpa
        cases k with
        | zero =>
          simp only [List.get?] at hpa
          injection hpa with hpa
          subst hpa
          refine ⟨fun loc' hl => absurd hl (by simp),
            fun i hi => absurd hi (by simp), fun v hv => ?_⟩
          injection hv with hv
          subst hv
          rfl
        | succ k' =>
          simp only [List.get?] at hpa ⊢
          exact hk k' pa hpa

theorem formatInputs_spec {V E Ann : Type} (reg : Ann → Option (String → V))
    (runParams : List Ann) (raws : List (RawIn V)) (bs : List (BoundIn V Ann))
    (h : (formatInputs reg runParams raws :
        Except (RunnableErr E) (List (BoundIn V Ann))) = .ok bs) :
    raws.length ≤ runParams.length ∧ bs.length = raws.length ∧
    ∀ k ra, raws.get? k = some ra →
      (∀ loc, ra = .file loc → ∃ ann, runParams.get? k = some ann ∧
        (reg ann).isSome ∧ bs.get? k = some (.typedFile loc ann)) ∧
      (∀ i, ra = .task i → bs.get? k = some (.task i)) ∧
      (∀ v, ra = .value v → bs.get? k = some (.value v)) := by
  unfold formatInputs at h
  by_cases hle : raws.length ≤ runParams.length
  · rw [if_pos hle] at h
    obtain ⟨hlen, hk⟩ := mapFormat_spec reg (raws.zip runParams) bs h
    have hzlen : (raws.zip runParams).length = raws.length := by
      rw [List.length_zip]
      omega
    refine ⟨hle, by omega, ?_⟩
    intro k ra hra
    have hklt : k < raws.length := by
      by_contra hge
      rw [List.get?_eq_none.mpr (by omega)] at hra
      exact Option.noConfusion hra
    obtain ⟨ann, hann⟩ : ∃ ann, runParams.get? k = some ann := by
      cases hg : runParams.get? k with
      | none =>
        have := List.get?_eq_none.mp hg
        omega
      | some a => exact ⟨a, rfl⟩
    have hzip : (raws.zip runParams).get? k = some (ra, ann) := by
      rw [zip_get?, hra, hann]
    obtain ⟨h1, h2, h3⟩ := hk k (ra, ann) hzip
    refine ⟨fun loc hl => ⟨ann, hann, ?_, ?_⟩, h2, h3⟩
    · exact (h1 loc hl).1
    · exact (h1 loc hl).2
  · rw [if_neg hle] at h
    exact Except.noConfusion h

theorem mkRunnable_ok_cases {V E A Ann : Type} (reg : Ann → Option (String → V))
    (alg : Algo V E A Ann) (raws : List (RawIn V))
    (opts : List (String × OptVal V)) (r : Runnable V E A Ann)
    (h : mkRunnable reg alg raws opts = .ok r) :
    ∃ ws fs,
      (formatOptions reg alg.ctorParams opts :
        Except (RunnableErr E) (List String × List (String × OptVal V))) =
        .ok (ws, fs) ∧
      alg.ctor fs = .ok r.algorithmInstance ∧
      (formatInputs reg alg.runParams raws :
        Except (RunnableErr E) (List (BoundIn V Ann))) = .ok r.inputs ∧
      r.warnings = ws := by
  unfold mkRunnable at h
  cases hfmt : (formatOptions reg alg.ctorParams opts :
      Except (RunnableErr E) (List String × List (String × OptVal V))) with
  | error e =>
    rw [hfmt] at h
    exact Except.noConfusion h
  | ok p =>
    obtain ⟨ws, fs⟩ := p
    rw [hfmt] at h
    dsimp only at h
    cases hctor : alg.ctor fs with
    | error e =>
      rw [hctor] at h
      exact Except.noConfusion h
    | ok inst =>
      rw [hctor] at h
      dsimp only at h
      cases hinp : (formatInputs reg alg.runParams raws :
          Except (RunnableErr E) (List (BoundIn V Ann))) with
      | error e =>
        rw [hinp] at h
        exact Except.noConfusion h
      | ok binputs =>
        rw [hinp] at h
        dsimp only at h
        injection h with h
        subst h
        exact ⟨ws, fs, rfl, hctor, rfl, rfl⟩

theorem formatOptions_mem_keys {V E Ann : Type} (reg : Ann → Option (String → V))
    (ps : List (String × Ann)) :
    ∀ (opts : List (String × OptVal V)) (ws : List String)
      (fs : List (String × OptVal V)),
      (formatOptions reg ps opts :
        Except (RunnableErr E) (List String × List (String × OptVal V))) =
        .ok (ws, fs) →
      ∀ nm w, (nm, w) ∈ fs → nm ∈ opts.map Prod.fst := by
  intro opts
  induction opts with
  | nil =>
    intro ws fs h nm w hmem
    injection h with h
    injection h with h1 h2
    subst h2
    exact absurd hmem (List.not_mem_nil _)
  | cons nv rest ih =>
    intro ws fs h nm w hmem
    obtain ⟨nm0, val0⟩ := nv
    cases val0 with
    | file loc =>
      simp only [formatOptions] at h
      cases hlk : lookupStr ps nm0 with
      | none =>
        rw [hlk] at h
        dsimp only at h
        cases hrest : (formatOptions reg ps rest :
            Except (RunnableErr E) (List String × List (String × OptVal V))) with
        | error e =>
          rw [hrest] at h
          exact Except.noConfusion h
        | ok p =>
          obtain ⟨ws', fs'⟩ := p
          rw [hrest] at h
          dsimp only at h
          injection h with h
          injection h with h1 h2
          subst h2
          exact List.mem_cons_of_mem _ (ih ws' fs' hrest nm w hmem)
      | some ann =>
        rw [hlk] at h
        dsimp only at h
        cases hreg : reg ann with
        | none =>
          rw [hreg] at h
          exact Except.noConfusion h
        | some loader =>
          rw [hreg] at h
          dsimp only at h
          cases hrest : (formatOptions reg ps rest :
              Except (RunnableErr E) (List String × List (String × OptVal V))) with
          | error e =>
            rw [hrest] at h
            exact Except.noConfusion h
          | ok p =>
            obtain ⟨ws', fs'⟩ := p
            rw [hrest] at h
            dsimp only at h
            injection h with h
            injection h with h1 h2
            subst h2
            rcases List.mem_cons.mp hmem with he | hm
            · injection he with he1 he2
              subst he1
              exact List.mem_cons_self _ _
            · exact List.mem_cons_of_mem _ (ih ws' fs' hrest nm w hm)
    | value v =>
      simp only [formatOptions] at h
      cases hrest : (formatOptions reg ps rest :
          Except (RunnableErr E) (List String × List (String × OptVal V))) with
      | error e =>
        rw [hrest] at h
        exact Except.noConfusion h
      | ok p =>
        obtain ⟨ws', fs'⟩ := p
        rw [hrest] at h
        dsimp only at h
        injection h with h
        injection h with h1 h2
        subst h2
        rcases List.mem_cons.mp hmem with he | hm
        · injection he with he1 he2
          subst he1
          exact List.mem_cons_self _ _
        · exact List.mem_cons_of_mem _ (ih ws' fs' hrest nm w hm)

theorem formatOptions_undeclared {V E Ann : Type} (reg : Ann → Option (String → V))
    (ps : List (String × Ann)) :
    ∀ (opts : List (String × OptVal V)) (name : String) (loc : String),
      lookupStr ps name = none →
      (name, OptVal.file loc) ∈ opts →
      (opts.map Prod.fst).Nodup →
      ∀ ws fs, (formatOptions reg ps opts :
          Except (RunnableErr E) (List String × List (String × OptVal V))) =
          .ok (ws, fs) →
        name ∈ ws ∧ ∀ w, (name, w) ∉ fs := by
  intro opts
  induction opts with
  | nil =>
    intro name loc _ hmem
    exact absurd hmem (List.not_mem_nil _)
  | cons nv rest ih =>
    intro name loc hundecl hmem hnd ws fs h
    obtain ⟨nm0, val0⟩ := nv
    have hnd' : (rest.map Prod.fst).Nodup := (List.nodup_cons.mp hnd).2
    have hnm0 : nm0 ∉ rest.map Prod.fst := (List.nodup_cons.mp hnd).1
    cases val0 with
    | file loc0 =>
      simp only [formatOptions] at h
      cases hlk : lookupStr ps nm0 with
      | none =>
        rw [hlk] at h
        dsimp only at h
        cases hrest : (formatOptions reg ps rest :
            Except (RunnableErr E) (List String × List (String × OptVal V))) with
        | error e =>
          rw [hrest] at h
          exact Except.noConfusion h
        | ok p =>
          obtain ⟨ws', fs'⟩ := p
          rw [hrest] at h
          dsimp only at h
          injection h with h
          injection h with h1 h2
          subst h1
          subst h2
          rcases List.mem_cons.mp hmem with he | hm
          · injection he with he1 he2
            subst he1
            refine ⟨List.mem_cons_self _ _, fun w hw => ?_⟩
            exact hnm0 (formatOptions_mem_keys reg ps rest ws' fs' hrest name w hw)
          · obtain ⟨hw, hf⟩ := ih name loc hundecl hm hnd' ws' fs' hrest
            exact ⟨List.mem_cons_of_mem _ hw, hf⟩
      | some ann =>
        rw [hlk] at h
        dsimp only at h
        cases hreg : reg ann with
        | none =>
          rw [hreg] at h
          exact Except.noConfusion h
        | some loader =>
          rw [hreg] at h
          dsimp only at h
          cases hrest : (formatOptions reg ps rest :
              Except (RunnableErr E) (List String × List (String × OptVal V))) with
          | error e =>
            rw [hrest] at h
            exact Except.noConfusion h
          | ok p =>
            obtain ⟨ws', fs'⟩ := p
            rw [hrest] at h
            dsimp only at h
            injection h with h
            injection h with h1 h2
            subst h1
            subst h2
            rcases List.mem_cons.mp hmem with he | hm
            · injection he with he1 he2
              subst he1
              rw [hundecl] at hlk
              exact Option.noConfusion hlk
            · obtain ⟨hw, hf⟩ := ih name loc hundecl hm hnd' ws' fs' hrest
              refine ⟨hw, fun w hw' => ?_⟩
              rcases List.mem_cons.mp hw' with he | hm'
              · injection he with he1 he2
                subst he1
                have hk : name ∈ rest.map Prod.fst :=
                  List.mem_map.mpr ⟨(name, OptVal.file loc), hm, rfl⟩
                exact hnm0 hk
              · exact hf w hm'
    | value v =>
      simp only [formatOptions] at h
      cases hrest : (formatOptions reg ps rest :
          Except (RunnableErr E) (List String × List (String × OptVal V))) with
      | error e =>
        rw [hrest] at h
        exact Except.noConfusion h
      | ok p =>
        obtain ⟨ws', fs'⟩ := p
        rw [hrest] at h
        dsimp only at h
        injection h with h
        injection h with h1 h2
        subst h1
        subst h2
        rcases List.mem_cons.mp hmem with he | hm
        · injection he with he1 he2
          exact absurd he2 (by simp)
        · obtain ⟨hw, hf⟩ := ih name loc hundecl hm hnd' ws' fs' hrest
          refine ⟨hw, fun w hw' => ?_⟩
          rcases List.mem_cons.mp hw' with he | hm'
          · injection he with he1 he2
            subst he1
            have hk : name ∈ rest.map Prod.fst :=
              List.mem_map.mpr ⟨(name, OptVal.file loc), hm, rfl⟩
            exact hnm0 hk
          · exact hf w hm'

end Runn

namespace Parse

theorem collectOutputs_error_eq {V : Type} (outputs : List (Nat × OutEntry V)) :
    ∀ (n : Nat) (e : ParseErr), collectOutputs outputs n = .error e →
      e = .assertionError := by
  intro n
  induction n with
  | zero =>
    intro e h
    exact absurd h (by simp [collectOutputs])
  | succ n ih =>
    intro e h
    simp only [collectOutputs] at h
    split at h
    next e' hrec =>
      injection h with h
      subst h
      exact ih e' hrec
    next l hrec =>
      split at h
      next hlk =>
        injection h with h
        exact h.symm
      next id hlk => exact Except.noConfusion h
      next v hlk =>
        injection h with h
        exact h.symm

theorem collectOutputs_ok_all {V : Type} (outputs : List (Nat × OutEntry V)) :
    ∀ (n : Nat) (l : List Nat), collectOutputs outputs n = .ok l →
      ∀ ix, ix < n → ∃ id, lookupList outputs ix = some (.runnable id) := by
  intro n
  induction n with
  | zero =>
    intro l _ ix hix
    omega
  | succ n ih =>
    intro l h ix hix
    simp only [collectOutputs] at h
    split at h
    next e hrec => exact Except.noConfusion h
    next l' hrec =>
      split at h
      next hlk => exact Except.noConfusion h
      next id hlk =>
        by_cases hixn : ix = n
        · subst hixn
          exact ⟨id, hlk⟩
        · exact ih l' hrec ix (by omega)
      next v hlk => exact Except.noConfusion h

theorem collectOutputs_error_of_bad {V : Type} (outputs : List (Nat × OutEntry V))
    (n : Nat)
    (hbad : ∃ ix, ix < n ∧ (lookupList outputs ix = none ∨
      ∃ v, lookupList outputs ix = some (.other v))) :
    collectOutputs outputs n = .error .assertionError := by
  obtain ⟨ix, hix, hb⟩ := hbad
  cases h : collectOutputs outputs n with
  | error e => rw [collectOutputs_error_eq outputs n e h]
  | ok l =>
    obtain ⟨id, hid⟩ := collectOutputs_ok_all outputs n l h ix hix
    rcases hb with hn | ⟨v, hv⟩
    · rw [hn] at hid
      exact Option.noConfusion hid
    · rw [hv] at hid
      injection hid with hid
      exact OutEntry.noConfusion hid

end Parse

/-- Claim C1: for every recipe whose tasks form a DAG (the construction-order
invariant carried by `Sched.Recipe`), the needed-set computed when the
`Execution` is built equals exactly the set of tasks reachable from the
output tasks by following dependency edges (the depth-first `build_graph`
traversal), and any task not in that set is never run by any sequence of
`run_one_tick` calls: every completed task of every reachable execution
state lies in the needed-set. -/
theorem c1_needed_set_exact {V E : Type} [Inhabited V] (g : Sched.Recipe V E) :
    (∀ i, i ∈ Sched.neededRunnables g ↔ Sched.Reaches g i) ∧
    (∀ s, Sched.Reachable g s →
      ∀ i ∈ s.completedRunnables, i ∈ Sched.neededRunnables g) :=
  ⟨Sched.needed_iff_reaches g,
   fun _ hs i hi => hs.inv.completed_needed i hi⟩

/-- Witness for C1 at the concrete decoy recipe: the output task 1 and its
dependency 0 are needed, 0 is needed in a reachable state via the theorem,
and the decoy task 2 is not in the needed-set. -/
theorem c1_needed_set_exact_witness :
    1 ∈ Sched.neededRunnables decoy3 ∧ 0 ∈ Sched.neededRunnables decoy3 ∧
    2 ∉ Sched.neededRunnables decoy3 :=
  ⟨((c1_needed_set_exact decoy3).1 1).mpr (Sched.Reaches.out (by decide)),
   (c1_needed_set_exact decoy3).2 decoy3s1
     (Sched.Reachable.tick Sched.Reachable.execution (by decide)) 0 (by decide),
   by decide⟩

/-- Claim C2: for every execution and after every `run_one_tick` call (in
every reachable state), the results-cache holds an entry for a task only
while it is a designated output (whose persistence is still pending) or
while at least one of its dependents per the dependents-index has not yet
completed; equivalently no non-output task all of whose dependents have
completed retains a cached result. -/
theorem c2_cache_liveness {V E : Type} [Inhabited V] (g : Sched.Recipe V E)
    (s : Sched.ExecState V) (hr : Sched.Reachable g s) :
    ∀ i, (lookupList s.completedResults i).isSome →
      i ∈ g.outputs ∨
        ∃ d ∈ Sched.runnableDependents g i, d ∉ s.completedRunnables :=
  fun i hi => ((hr.inv.cache_iff i).mp hi).2

/-- Witness for C2: in the `chain2` state after one tick, task 0's result is
cached, and the theorem yields that 0 is an output or has an incomplete
dependent. -/
theorem c2_cache_liveness_witness :
    0 ∈ chain2.outputs ∨
      ∃ d ∈ Sched.runnableDependents chain2 0, d ∉ chain2s1.completedRunnables :=
  c2_cache_liveness chain2 chain2s1
    (Sched.Reachable.tick Sched.Reachable.execution (by decide)) 0 (by decide)

/-- Claim C3, counterexample: the claim as stated is false on the code.
Constructing a task whose single named option `b` is a generic file
reference, with `b` not a parameter of the algorithm constructor, succeeds
and records the `b` warning — but the `continue` in `Runnable.__init__`
drops the option, so the constructor (here one that records the options it
receives as the algorithm instance) receives no option at all: the raw,
undecoded reference never reaches it. -/
theorem c3_counterexample :
    Runn.mkRunnable regN recAlg ([] : List (Runn.RawIn Nat))
      [("b", Runn.OptVal.file "f")] = .ok ⟨[], [], ["b"]⟩ ∧
    ¬∃ r, Runn.mkRunnable regN recAlg ([] : List (Runn.RawIn Nat))
        [("b", Runn.OptVal.file "f")] = .ok r ∧
      ("b", Runn.OptVal.file "f") ∈ r.algorithmInstance := by
  constructor
  · decide
  · rintro ⟨r, hr, hmem⟩
    have h1 : Runn.mkRunnable regN recAlg ([] : List (Runn.RawIn Nat))
        [("b", Runn.OptVal.file "f")] = .ok ⟨[], [], ["b"]⟩ := by decide
    rw [h1] at hr
    injection hr with hr
    subst hr
    exact absurd hmem (List.not_mem_nil _)

/-- Claim C3, amended: for every task constructed with a named option bound
to a generic file reference whose name is not declared in the algorithm
constructor's signature, option formatting emits a recoverable warning
naming the option and drops it: whenever formatting succeeds the formatted
options contain no binding for that name under any value, and whenever
construction succeeds the warning is recorded on the task and the
constructor was invoked on formatted options omitting the name entirely. -/
theorem c3_undeclared_option_dropped {V E A Ann : Type}
    (reg : Ann → Option (String → V)) (alg : Runn.Algo V E A Ann)
    (raws : List (Runn.RawIn V)) (opts : List (String × Runn.OptVal V))
    (name loc : String)
    (hundecl : Runn.lookupStr alg.ctorParams name = none)
    (hmem : (name, Runn.OptVal.file loc) ∈ opts)
    (hnd : (opts.map Prod.fst).Nodup) :
    (∀ ws fs, (Runn.formatOptions reg alg.ctorParams opts :
        Except (Runn.RunnableErr E)
          (List String × List (String × Runn.OptVal V))) = .ok (ws, fs) →
      name ∈ ws ∧ ∀ w, (name, w) ∉ fs) ∧
    (∀ r, Runn.mkRunnable reg alg raws opts = .ok r →
      name ∈ r.warnings ∧
      ∃ fs, alg.ctor fs = .ok r.algorithmInstance ∧ ∀ w, (name, w) ∉ fs) := by
  constructor
  · exact fun ws fs h =>
      Runn.formatOptions_undeclared reg alg.ctorParams opts name loc
        hundecl hmem hnd ws fs h
  · intro r hr
    obtain ⟨ws, fs, hfmt, hctor, hinp, hwarn⟩ :=
      Runn.mkRunnable_ok_cases reg alg raws opts r hr
    obtain ⟨hw, hf⟩ := Runn.formatOptions_undeclared reg alg.ctorParams opts
      name loc hundecl hmem hnd ws fs hfmt
    refine ⟨by rw [hwarn]; exact hw, fs, hctor, hf⟩

/-- Witness for the amended C3 at the counterexample's input: the warning
list is exactly `["b"]` and the formatted options are empty. -/
theorem c3_undeclared_option_dropped_witness :
    "b" ∈ ["b"] ∧ ∀ w, ("b", w) ∉ ([] : List (String × Runn.OptVal Nat)) :=
  (c3_undeclared_option_dropped regN recAlg ([] : List (Runn.RawIn Nat))
      [("b", Runn.OptVal.file "f")] "b" "f" (by decide) (by decide)
      (by decide)).1 ["b"] [] (by decide)

/-- Claim C4, counterexample: the claim as stated is false on the code.  Two
declared outputs against one destination path make the post-execution
validation fail, but with Python's `AssertionError` (the checks in
`Recipe.__init__` are `assert` statements), not with `RecipeError`. -/
theorem c4_counterexample :
    Parse.mkRecipeOutputs
      ([(0, Parse.OutEntry.runnable 0), (1, Parse.OutEntry.runnable 1)] :
        List (Nat × Parse.OutEntry Nat)) ["p"] =
      .error Parse.ParseErr.assertionError ∧
    Parse.ParseErr.assertionError ≠ Parse.ParseErr.recipeError :=
  ⟨by decide, by decide⟩

/-- Claim C4, amended: for every recipe script whose post-execution
validation fails — the output-mapping size differs from the destination-list
size, some key in `0..N-1` is missing, or some output value is not a task —
`Recipe` construction fails (no recipe is produced), raising the
`AssertionError` of a failed `assert` rather than `RecipeError`. -/
theorem c4_validation_fails_with_assert {V : Type}
    (outputs : List (Nat × Parse.OutEntry V)) (outputPaths : List String)
    (hv : outputs.length ≠ outputPaths.length ∨
      (∃ ix, ix < outputs.length ∧ lookupList outputs ix = none) ∨
      (∃ ix, ix < outputs.length ∧
        ∃ v, lookupList outputs ix = some (Parse.OutEntry.other v))) :
    Parse.mkRecipeOutputs outputs outputPaths =
      .error Parse.ParseErr.assertionError := by
  unfold Parse.mkRecipeOutputs
  by_cases hlen : outputs.length = outputPaths.length
  · rw [if_pos hlen]
    rcases hv with h | h | h
    · exact absurd hlen h
    · obtain ⟨ix, hix, hbad⟩ := h
      exact Parse.collectOutputs_error_of_bad outputs _ ⟨ix, hix, Or.inl hbad⟩
    · obtain ⟨ix, hix, hbad⟩ := h
      exact Parse.collectOutputs_error_of_bad outputs _ ⟨ix, hix, Or.inr hbad⟩
  · rw [if_neg hlen]

/-- Witness for the amended C4: one output against two destination paths
fails with the assertion error. -/
theorem c4_validation_fails_with_assert_witness :
    Parse.mkRecipeOutputs
      ([(0, Parse.OutEntry.runnable 0)] : List (Nat × Parse.OutEntry Nat))
      ["p", "q"] = .error Parse.ParseErr.assertionError :=
  c4_validation_fails_with_assert _ _ (Or.inl (by decide))

/-- Claim C5, counterexample: the claim as stated is false on the code.
`run_one_tick` does not scan the task sequence from the sequence start on
every call: `Execution.__init__` wraps the sequence in `iter(..)` and each
tick resumes from that persistent cursor.  Formalising "scans from the
sequence start on every call" as the scan's start position (the state's
cursor, which is where `runOneTick` begins) being 0 in every reachable
state, the state of `chain2` after one tick refutes it: its cursor is 1, so
the second call's scan begins at position 1 and never re-examines
position 0. -/
theorem c5_counterexample :
    ¬∀ (s : Sched.ExecState Nat), Sched.Reachable chain2 s → s.cursor = 0 := by
  intro hall
  have h := hall chain2s1
    (Sched.Reachable.tick Sched.Reachable.execution (by decide))
  exact absurd h (by decide)

/-- Claim C5, amended: on every call `run_one_tick` draws candidates from
the persistent iterator starting at the current cursor — not from the
sequence start — skipping tasks outside the needed-set, and runs exactly the
first needed task it draws; in every reachable state that task equals the
earliest-declared needed task not yet executed. -/
theorem c5_selects_earliest_unrun {V E : Type} [Inhabited V]
    (g : Sched.Recipe V E) (s : Sched.ExecState V) (hr : Sched.Reachable g s)
    (c : Nat) (hc : Sched.nextNeeded g s.cursor = some c) :
    c ∈ Sched.neededRunnables g ∧ c ∉ s.completedRunnables ∧
      (∀ j ∈ Sched.neededRunnables g, j ∉ s.completedRunnables → c ≤ j) ∧
      ∀ s', Sched.runOneTick g s = .ok s' →
        s'.completedRunnables = c :: s.completedRunnables := by
  have hs := hr.inv
  obtain ⟨hcc, hclen, hcn, hgap⟩ := Sched.nextNeeded_some hc
  refine ⟨hcn, fun hm => absurd (hs.completed_lt c hm) (by omega), ?_, ?_⟩
  · intro j hjn hjnc
    by_contra hlt
    push_neg at hlt
    have hjcur : s.cursor ≤ j := by
      by_contra hx
      exact hjnc (hs.passed_completed j hjn (by omega))
    exact hgap j hjcur hlt hjn
  · intro s' ht
    obtain ⟨c', result, hn', hr', rfl⟩ := Sched.runOneTick_ok_cases ht
    rw [hc] at hn'
    injection hn' with hn'
    dsimp only
    rw [← hn']

/-- Witness for the amended C5 at the fresh `chain2` execution: the iterator
selects task 0, the earliest-declared needed task not yet executed. -/
theorem c5_selects_earliest_unrun_witness :
    0 ∈ Sched.neededRunnables chain2 ∧
    0 ∉ (Sched.Recipe.execution chain2).completedRunnables ∧
    (∀ j ∈ Sched.neededRunnables chain2,
      j ∉ (Sched.Recipe.execution chain2).completedRunnables → 0 ≤ j) ∧
    ∀ s', Sched.runOneTick chain2 (Sched.Recipe.execution chain2) = .ok s' →
      s'.completedRunnables =
        0 :: (Sched.Recipe.execution chain2).completedRunnables :=
  c5_selects_earliest_unrun chain2 (Sched.Recipe.execution chain2)
    Sched.Reachable.execution 0 (by decide)

/-- Claim C6: for every task, a positional input that is a generic file
reference is bound at construction time to a typed file reference carrying
the location and the parameter type resolved from the run signature at the
same position — decoded only when the task runs — while task references and
other values pass through unchanged; and at run time each bound input is
resolved as the previous result for a task reference, the freshly decoded
value for a typed file reference, and the unchanged raw value otherwise,
before the algorithm's run operation is invoked on the resolved inputs. -/
theorem c6_lazy_file_binding {V E A Ann : Type} (reg : Ann → Option (String → V))
    (alg : Runn.Algo V E A Ann) (raws : List (Runn.RawIn V))
    (opts : List (String × Runn.OptVal V)) (r : Runn.Runnable V E A Ann)
    (h : Runn.mkRunnable reg alg raws opts = .ok r) :
    (r.inputs.length = raws.length ∧
      ∀ k ra, raws.get? k = some ra →
        (∀ loc, ra = Runn.RawIn.file loc → ∃ ann,
          alg.runParams.get? k = some ann ∧ (reg ann).isSome ∧
          r.inputs.get? k = some (Runn.BoundIn.typedFile loc ann)) ∧
        (∀ i, ra = Runn.RawIn.task i →
          r.inputs.get? k = some (Runn.BoundIn.task i)) ∧
        (∀ v, ra = Runn.RawIn.value v →
          r.inputs.get? k = some (Runn.BoundIn.value v))) ∧
    (∀ prev args, (Runn.resolveAll reg prev r.inputs :
        Except (Runn.RunnableErr E) (List V)) = .ok args →
      Runn.Runnable.run reg alg r prev =
        match alg.run r.algorithmInstance args with
        | .ok v => .ok v
        | .error e => .error (.executionError e)) ∧
    (∀ prev loc ann loader, reg ann = some loader →
      (Runn.resolveInput reg prev (Runn.BoundIn.typedFile loc ann) :
        Except (Runn.RunnableErr E) V) = .ok (loader loc)) ∧
    (∀ prev i v, lookupList prev i = some v →
      (Runn.resolveInput reg prev (Runn.BoundIn.task i) :
        Except (Runn.RunnableErr E) V) = .ok v) ∧
    (∀ prev v, (Runn.resolveInput reg prev (Runn.BoundIn.value v) :
        Except (Runn.RunnableErr E) V) = .ok v) := by
  obtain ⟨ws, fs, hfmt, hctor, hinp, hwarn⟩ :=
    Runn.mkRunnable_ok_cases reg alg raws opts r h
  obtain ⟨hle, hlen, hk⟩ := Runn.formatInputs_spec reg alg.runParams raws r.inputs hinp
  refine ⟨⟨hlen, hk⟩, ?_, ?_, ?_, ?_⟩
  · intro prev args hres
    simp only [Runn.Runnable.run, hres]
  · intro prev loc ann loader hreg
    simp only [Runn.resolveInput, hreg]
  · intro prev i v hv
    simp only [Runn.resolveInput, hv]
  · intro prev v
    rfl

/-- Witness for C6 at a concrete construction: the file reference at
position 0 is bound, undecoded, to a typed file reference carrying the
position-0 annotation, and the raw value at position 1 passes through. -/
theorem c6_lazy_file_binding_witness :
    (∃ ann, algC6.runParams.get? 0 = some ann ∧ (regN ann).isSome ∧
      rC6.inputs.get? 0 = some (Runn.BoundIn.typedFile "ab" ann)) ∧
    rC6.inputs.get? 1 = some (Runn.BoundIn.value 7) := by
  have h : Runn.mkRunnable regN algC6
      [Runn.RawIn.file "ab", Runn.RawIn.value 7] [] = .ok rC6 := by decide
  obtain ⟨⟨-, hk⟩, -, -, -, -⟩ :=
    c6_lazy_file_binding regN algC6 [Runn.RawIn.file "ab", Runn.RawIn.value 7]
      [] rC6 h
  exact ⟨(hk 0 (Runn.RawIn.file "ab") (by decide)).1 "ab" rfl,
    (hk 1 (Runn.RawIn.value 7) (by decide)).2.2 7 rfl⟩

/-- Claim C7: any exception raised while instantiating the algorithm at
construction time is wrapped as `ConstructorError`, any exception raised by
the algorithm's run operation at run time is wrapped as `ExecutionError`,
in both cases preserving the originating cause; and `run_one_tick`
propagates the `ExecutionError` unchanged (it has no handler). -/
theorem c7_error_wrapping :
    (∀ (V E A Ann : Type) (reg : Ann → Option (String → V))
        (alg : Runn.Algo V E A Ann) (raws : List (Runn.RawIn V))
        (opts : List (String × Runn.OptVal V)) (ws : List String)
        (fs : List (String × Runn.OptVal V)) (e : E),
      (Runn.formatOptions reg alg.ctorParams opts :
        Except (Runn.RunnableErr E)
          (List String × List (String × Runn.OptVal V))) = .ok (ws, fs) →
      alg.ctor fs = .error e →
      Runn.mkRunnable reg alg raws opts = .error (.constructorError e)) ∧
    (∀ (V E A Ann : Type) (reg : Ann → Option (String → V))
        (alg : Runn.Algo V E A Ann) (r : Runn.Runnable V E A Ann)
        (prev : List (Nat × V)) (args : List V) (e : E),
      (Runn.resolveAll reg prev r.inputs :
        Except (Runn.RunnableErr E) (List V)) = .ok args →
      alg.run r.algorithmInstance args = .error e →
      Runn.Runnable.run reg alg r prev = .error (.executionError e)) ∧
    (∀ (V E : Type) [Inhabited V] (g : Sched.Recipe V E)
        (s : Sched.ExecState V) (c : Nat) (e : E),
      Sched.nextNeeded g s.cursor = some c →
      (g.runnableAt c).run s.completedResults =
        .error (Sched.TickErr.executionError e) →
      Sched.runOneTick g s = .error (Sched.TickErr.executionError e)) := by
  refine ⟨?_, ?_, ?_⟩
  · intro V E A Ann reg alg raws opts ws fs e hfmt hctor
    simp only [Runn.mkRunnable, hfmt, hctor]
  · intro V E A Ann reg alg r prev args e hres hrun
    simp only [Runn.Runnable.run, hres, hrun]
  · intro V E _ g s c e hn hrun
    simp only [Sched.runOneTick, hn, hrun]

/-- Witness for C7 at concrete failing algorithms: the constructor failure
surfaces as `ConstructorError` with its cause, the run failure as
`ExecutionError` with its cause, and a tick whose selected task fails
propagates the `ExecutionError`. -/
theorem c7_error_wrapping_witness :
    Runn.mkRunnable regN ctorFailAlg ([] : List (Runn.RawIn Nat)) [] =
      .error (Runn.RunnableErr.constructorError ()) ∧
    Runn.Runnable.run regN runFailAlg emptyRunnable [] =
      .error (Runn.RunnableErr.executionError ()) ∧
    Sched.runOneTick failing1 (Sched.Recipe.execution failing1) =
      .error (Sched.TickErr.executionError ()) := by
  refine ⟨?_, ?_, ?_⟩
  · exact c7_error_wrapping.1 Nat Unit Unit Nat regN ctorFailAlg [] [] [] [] ()
      (by decide) rfl
  · exact c7_error_wrapping.2.1 Nat Unit Unit Nat regN runFailAlg emptyRunnable
      [] [] () rfl rfl
  · exact c7_error_wrapping.2.2 Nat Unit failing1
      (Sched.Recipe.execution failing1) 0 () (by decide) (by decide)

/-- Claim C8: for every recipe whose algorithms are deterministic and
non-failing, a fresh execution driven by `run_and_save` produces exactly the
saved outputs given by the canonical evaluation of each output task — a
value determined by the recipe alone — so two fresh executions over the same
recipe produce identical saved outputs. -/
theorem c8_deterministic_outputs {V E : Type} [Inhabited V]
    (g : Sched.Recipe V E) (hnf : Sched.NoFail g) :
    Sched.runAndSave g (Sched.Recipe.execution g) =
      .ok ((g.outputs.zip g.outputPaths).map fun op =>
        (op.2, Sched.eval g op.1)) ∧
    ∀ s₁ s₂, s₁ = Sched.Recipe.execution g → s₂ = Sched.Recipe.execution g →
      Sched.runAndSave g s₁ = Sched.runAndSave g s₂ := by
  constructor
  · exact Sched.runAndSave_ok hnf (Sched.Recipe.execution g)
      (Sched.inv_execution g)
  · rintro s₁ s₂ rfl rfl
    rfl

/-- Witness for C8 at the concrete chain recipe, whose algorithms never
fail. -/
theorem c8_deterministic_outputs_witness :
    Sched.NoFail chain2 ∧
    Sched.runAndSave chain2 (Sched.Recipe.execution chain2) =
      .ok ((chain2.outputs.zip chain2.outputPaths).map fun op =>
        (op.2, Sched.eval chain2 op.1)) := by
  have hnf : Sched.NoFail chain2 := by
    intro i args
    match i with
    | 0 => exact ⟨_, rfl⟩
    | 1 => exact ⟨_, rfl⟩
    | n + 2 => exact ⟨default, rfl⟩
  exact ⟨hnf, (c8_deterministic_outputs chain2 hnf).1⟩

/-- Claim C9: supplying more positional inputs than the algorithm's run
operation declares parameters makes construction fail right there with an
assertion failure (`assert len(self._raw_inputs) <= len(keys)`), rather than
deferring the mismatch to run time. -/
theorem c9_excess_inputs_assert {V E A Ann : Type}
    (reg : Ann → Option (String → V)) (alg : Runn.Algo V E A Ann)
    (raws : List (Runn.RawIn V)) (opts : List (String × Runn.OptVal V))
    (ws : List String) (fs : List (String × Runn.OptVal V)) (inst : A)
    (hfmt : (Runn.formatOptions reg alg.ctorParams opts :
      Except (Runn.RunnableErr E)
        (List String × List (String × Runn.OptVal V))) = .ok (ws, fs))
    (hctor : alg.ctor fs = .ok inst)
    (hlen : alg.runParams.length < raws.length) :
    Runn.mkRunnable reg alg raws opts =
      .error Runn.RunnableErr.assertionError := by
  simp only [Runn.mkRunnable, hfmt, hctor, Runn.formatInputs,
    if_neg (by omega : ¬raws.length ≤ alg.runParams.length)]

/-- Witness for C9: one positional input against a run operation with no
parameters fails construction with the assertion error. -/
theorem c9_excess_inputs_assert_witness :
    Runn.mkRunnable regN noParamAlg [Runn.RawIn.value 1] [] =
      .error Runn.RunnableErr.assertionError :=
  c9_excess_inputs_assert regN noParamAlg [Runn.RawIn.value 1] [] [] [] ()
    rfl rfl (by decide)

/-- Claim C10: in every reachable execution state where no needed task
remains unexecuted — in particular whenever the execution is already
complete — `run_one_tick` raises `StopIteration` from the exhausted task
iterator rather than returning as a no-op; `run_and_save` avoids the
exception only because it checks completeness before each tick (once
complete it goes straight to `save`). -/
theorem c10_exhausted_iterator_raises {V E : Type} [Inhabited V]
    (g : Sched.Recipe V E) (s : Sched.ExecState V) (hr : Sched.Reachable g s) :
    ((∀ i ∈ Sched.neededRunnables g, i ∈ s.completedRunnables) →
      Sched.runOneTick g s = .error Sched.TickErr.stopIteration) ∧
    (s.incompleteOutputs = [] →
      Sched.runOneTick g s = .error Sched.TickErr.stopIteration) ∧
    (s.incompleteOutputs = [] → Sched.runAndSave g s = Sched.save g s) := by
  have hs := hr.inv
  refine ⟨fun hall => Sched.runOneTick_stopIteration hs hall, fun hc => ?_,
    fun hc => Sched.runAndSave_complete hc⟩
  exact Sched.runOneTick_stopIteration hs (Sched.complete_all_needed hs hc)

/-- Witness for C10: ticking the completed `chain2` execution raises
`StopIteration`. -/
theorem c10_exhausted_iterator_raises_witness :
    Sched.runOneTick chain2 chain2s2 = .error Sched.TickErr.stopIteration := by
  have h1 : Sched.runOneTick chain2 (Sched.Recipe.execution chain2) =
      .ok chain2s1 := by decide
  have h2 : Sched.runOneTick chain2 chain2s1 = .ok chain2s2 := by decide
  exact (c10_exhausted_iterator_raises chain2 chain2s2
    (Sched.Reachable.tick (Sched.Reachable.tick Sched.Reachable.execution h1)
      h2)).2.1 rfl
